import Mathlib

/-!
# Field tokenizer of the mapped delimited-dataset engine

A shallow embedding of `read_field` (mapped_csv.detail.h) and of the type
constants of data-processing.h.

* A buffer `[buffer, end)` is a `List Nat` of byte values; a `char const *`
  into it is the `Nat` index of the byte it points at, and `end` is the
  length of the list.  Dereferencing an index that is not below `end`
  is the fault `out_of_bounds`.
* `assert` is modelled as in a debug build: a failing assertion is the fault
  `assertion_failed`; `DebugBreak()` is the fault `debug_break`.
* A `type_mask_t` value is a `Nat`; `~` is the complement on 32 bits.
* `ltrim`, `rtrim` and `type_mask_t` come from data_processing.detail.h, which
  is not among the sources; they follow the specification's description.
-/

namespace cdmh
namespace data_processing

/-! ## Byte values of the character literals used by the source -/

/-- Byte value of the horizontal tab. -/
def ch_tab : Nat := 9
/-- Byte value of the line feed, written `\n` in the source. -/
def ch_lf : Nat := 10
/-- Byte value of the carriage return, written `\r` in the source. -/
def ch_cr : Nat := 13
/-- Byte value of the space character. -/
def ch_space : Nat := 32
/-- Byte value of the double quote character. -/
def ch_quote : Nat := 34
/-- Byte value of the plus sign. -/
def ch_plus : Nat := 43
/-- Byte value of the comma. -/
def ch_comma : Nat := 44
/-- Byte value of the minus sign. -/
def ch_minus : Nat := 45
/-- Byte value of the period. -/
def ch_period : Nat := 46
/-- Byte value of the digit zero. -/
def ch_0 : Nat := 48
/-- Byte value of the digit nine. -/
def ch_9 : Nat := 57

/-- The bytes of a string literal, used to write concrete buffers. -/
def bytes (str : String) : List Nat := str.toList.map Char.toNat

/-- The C library classification `isspace` in the "C" locale: space, and the
control characters horizontal tab, line feed, vertical tab, form feed and
carriage return. -/
def isspace (c : Nat) : Bool :=
  c == ch_space || (ch_tab ≤ c && c ≤ ch_cr)

/-! ## Type masks (data-processing.h, lines 67-70) -/

/-- The constant `string_type = 1`. -/
def string_type : Nat := 1
/-- The constant `double_type = 1 << 1`. -/
def double_type : Nat := 1 <<< 1
/-- The constant `integer_type = 1 << 2`. -/
def integer_type : Nat := 1 <<< 2
/-- The constant `null_type = 1 << 3`. -/
def null_type : Nat := 1 <<< 3

/-- Modelled from the spec: the type `type_mask_t`, whose declaration
(data_processing.detail.h) is missing from the sources.  The spec calls it "a
small set of ... flags"; it is taken as an unsigned integer of at most 32
bits, a `Nat` here.  This is the operator `~` on such a mask: the complement on
32 bits, the width of the `int` to which a narrower mask is promoted. -/
def bit_not (m : Nat) : Nat := (2 ^ 32 - 1) ^^^ (m % 2 ^ 32)

/-- The function `bit_count` (mapped_csv.detail.h, lines 9-16) on a 32-bit
unsigned value; every intermediate result is reduced modulo `2 ^ 32`. -/
def bit_count (n : Nat) : Nat :=
  let n1 := (n + 2 ^ 32 - ((n >>> 1) &&& 0x55555555)) % 2 ^ 32
  let n2 := ((n1 &&& 0x33333333) + ((n1 >>> 2) &&& 0x33333333)) % 2 ^ 32
  (((((n2 + (n2 >>> 4)) % 2 ^ 32) &&& 0x0F0F0F0F) * 0x01010101) % 2 ^ 32) >>> 24

/-! ## Trimming helpers

`ltrim` and `rtrim` are declared in data_processing.detail.h, which is not
among the available sources. -/

/-- The loop of `ltrim` on the bytes from the cursor to `end`. -/
def ltrim_loop : List Nat → Nat → Nat
  | [], begin => begin
  | c :: rest, begin => if isspace c then ltrim_loop rest (begin + 1) else begin

/-- Modelled from the spec: `ltrim(begin, end)`, missing from the sources
(it lives in data_processing.detail.h).  The spec says "Skip leading
whitespace (outside quotes) - ltrim": the cursor, taken by reference, is
advanced while it is not `end` and points at a whitespace byte; whitespace is
the classification `isspace` that `read_field` itself uses.  The result is the
new cursor. -/
def ltrim (s : List Nat) (begin : Nat) : Nat :=
  ltrim_loop (s.drop begin) begin

/-- Modelled from the spec: `rtrim(begin, end)`, missing from the sources
(it lives in data_processing.detail.h).  The spec says "Trim trailing
whitespace (outside quotes) - rtrim": the end of the range, taken by
reference, is moved back while it is not `begin` and the byte before it is
whitespace.  The second argument is the end of the range; the result is the
new end. -/
def rtrim (s : List Nat) (begin : Nat) : Nat → Nat
  | 0 => 0
  | e + 1 =>
    if begin = e + 1 then e + 1
    else
      match s[e]? with
      | some c => if isspace c then rtrim s begin e else e + 1
      | none => e + 1

/-! ## read_field (mapped_csv.detail.h, lines 18-124) -/

/-- The ways a call can fail to return. -/
inductive Fault where
  | assertion_failed
  | out_of_bounds
  | debug_break
  deriving DecidableEq, Repr

deriving instance DecidableEq for Except

/-- What a returning call produces: the `string_view` as the pair of indices
`first` and `last` (the bytes `first .. last - 1`), the type mask, and the
value of the caller's cursor `begin` after the call. -/
structure FieldResult where
  first : Nat
  last : Nat
  mask : Nat
  cursor : Nat
  deriving DecidableEq, Repr

/-- The local variables the scanning loop changes. -/
structure ScanState where
  it : Nat
  incl_type_mask : Nat
  excl_type_mask : Nat
  seen_period : Bool
  seen_space : Bool
  deriving DecidableEq, Repr

/-- The loop body outside quotes (lines 65-95) for the byte `c` at `it`;
the increment of `it` belongs to the loop. -/
def scan_body (c : Nat) (st : ScanState) : ScanState :=
  if ch_0 ≤ c ∧ c ≤ ch_9 then
    if st.seen_space then
      { st with excl_type_mask := st.excl_type_mask ||| (double_type ||| integer_type) }
    else
      { st with incl_type_mask := st.incl_type_mask ||| (double_type ||| integer_type) }
  else if c = ch_period then
    if st.seen_space then
      { st with excl_type_mask := st.excl_type_mask ||| (double_type ||| integer_type) }
    else if st.seen_period then
      { st with excl_type_mask := st.excl_type_mask ||| double_type }
    else
      { st with
        incl_type_mask := st.incl_type_mask ||| double_type
        excl_type_mask := st.excl_type_mask ||| integer_type
        seen_period := true }
  else if c ≠ ch_cr ∧ c ≠ ch_lf then
    if isspace c then { st with seen_space := true }
    else { st with excl_type_mask := st.excl_type_mask ||| (double_type ||| integer_type) }
  else st

/-- The `for` loop of lines 47-96.  The first argument is `in_quotes`, the
second the bytes from `it` to `end` (`it != end` is "the list is not
empty", `*it` its head, `*(it+1)` the head of its tail). -/
def scan (in_quotes : Bool) : List Nat → ScanState → ScanState
  | [], st => st
  | c :: rest, st =>
    if in_quotes then
      if c ≠ ch_quote then
        scan in_quotes rest { st with it := st.it + 1 }
      else
        match rest with
        | [] => st
        | c1 :: rest1 =>
          if c1 = ch_quote then
            -- the body's `++it` and the loop's `++it`
            scan in_quotes rest1 { st with it := st.it + 1 + 1 }
          else st
    else if c ≠ ch_comma ∧ c ≠ ch_cr ∧ c ≠ ch_lf then
      scan in_quotes rest { scan_body c st with it := st.it + 1 }
    else st

/-- The values an inclusion mask can take: `string` is always in it. -/
def incl_ok (m : Nat) : Prop := m = 1 ∨ m = 3 ∨ m = 5 ∨ m = 7

/-- The values an exclusion mask can take: only `double` and `integer`. -/
def excl_ok (m : Nat) : Prop := m = 0 ∨ m = 2 ∨ m = 4 ∨ m = 6

/-- The precedence rules of lines 104-109. -/
def resolve (incl_type_mask excl_type_mask : Nat) : Nat :=
  let m := incl_type_mask &&& bit_not excl_type_mask
  let m := if m &&& integer_type ≠ 0 then m &&& bit_not (double_type ||| string_type) else m
  if m &&& double_type ≠ 0 then m &&& bit_not string_type else m

/-- The locals before the loop (lines 34-46): `it = begin`, the masks, and the
special case for unary operators.  `c` is the byte at `begin` that line 28
read; line 39 reads `*it` only outside quotes, where it is that same byte. -/
def init_state (in_quotes : Bool) (c begin : Nat) : ScanState :=
  if !in_quotes && (c == ch_minus || c == ch_plus) then
    { it := begin + 1
      incl_type_mask := string_type ||| (double_type ||| integer_type)
      excl_type_mask := 0, seen_period := false, seen_space := false }
  else
    { it := begin, incl_type_mask := string_type
      excl_type_mask := 0, seen_period := false, seen_space := false }

/-- Lines 98-123, after the loop: the right trim, the null case, the
precedence rules and the update of the caller's cursor.  `begin` is the
start of the span and `st` the locals the loop left. -/
def finish_field (s : List Nat) (in_quotes : Bool) (begin : Nat) (st : ScanState) :
    Except Fault FieldResult :=
  let it := if !in_quotes then rtrim s begin st.it else st.it
  if begin = it then
    .ok { first := begin, last := it, mask := null_type, cursor := begin }
  else
    let incl_type_mask := resolve st.incl_type_mask st.excl_type_mask
    if bit_count incl_type_mask ≠ 1 then .error .assertion_failed
    else if in_quotes then
      -- `*begin` after `begin = it`
      match s[it]? with
      | none => .error .out_of_bounds
      | some q =>
        if q ≠ ch_quote then .error .debug_break
        else .ok { first := begin, last := it, mask := incl_type_mask, cursor := it + 1 }
    else
      .ok { first := begin, last := it, mask := incl_type_mask, cursor := it }

/-- The function `read_field(begin, end)` on the buffer `s`, `end` being
`s.length`. -/
def read_field (s : List Nat) (begin : Nat) : Except Fault FieldResult :=
  -- assert(begin != end)
  if begin = s.length then .error .assertion_failed
  else
    let begin := ltrim s begin
    -- `*begin`
    match s[begin]? with
    | none => .error .out_of_bounds
    | some c =>
      let in_quotes := c == ch_quote
      let begin := if in_quotes then begin + 1 else begin
      let st0 := init_state in_quotes c begin
      finish_field s in_quotes begin (scan in_quotes (s.drop st0.it) st0)

/-- Whether the bytes after a field end it outside quotes: `end` is reached,
or the next byte is a comma, CR or LF. -/
def at_field_end : List Nat → Bool
  | [] => true
  | t :: _ => t == ch_comma || t == ch_cr || t == ch_lf

/-- The spec's reading of quote escaping (section 6, "`""` inside a quoted
field denotes a literal quote"), as a function from the text a field denotes to
the bytes that stand between its outer quotes: every quote character of the
text is doubled.  It is not part of `read_field`; the results about quoted
fields are stated with it. -/
def rfc4180_escape : List Nat → List Nat
  | [] => []
  | c :: text =>
    if c = ch_quote then ch_quote :: ch_quote :: rfc4180_escape text
    else c :: rfc4180_escape text

/-- The bytes of the returned span. -/
def span_bytes (s : List Nat) (r : FieldResult) : List Nat :=
  (s.drop r.first).take (r.last - r.first)

/-- The resolved type mask `read_field` returns for the field that starts the
buffer `field`, when it returns. -/
def resolved_mask (field : List Nat) : Option Nat :=
  match read_field field 0 with
  | .ok r => some r.mask
  | .error _ => none

/-- Modelled from the spec: the column aggregation of the row/column indexer
(section 4.3), whose code (dataset.h, mapped_csv.h) is missing from the
sources.  "After each row, update the column's aggregate Type Mask by
intersecting (bitwise AND) the new field's resolved mask with the column's
running mask": the running mask starts with every bit set, and the resolved
mask of each row's field, in order, is ANDed into it. -/
def column_type (masks : List Nat) : Nat :=
  masks.foldl (fun running m => running &&& m) (bit_not 0)


/-! ## Reference descriptions the results are compared with -/

/-- A list without its leading whitespace bytes. -/
def strip_left (l : List Nat) : List Nat := l.dropWhile isspace

/-- A list without its trailing whitespace bytes. -/
def strip_right (l : List Nat) : List Nat := (l.reverse.dropWhile isspace).reverse

/-- The span of an unquoted field as the claim about it words it, not taken
from `read_field`: the bytes from the cursor up to, and not including, the
first comma, CR or LF (or up to `end` when there is none), with leading and
trailing whitespace removed. -/
def claimed_unquoted_span (s : List Nat) (begin : Nat) : List Nat :=
  strip_right (strip_left
    ((s.drop begin).takeWhile (fun c => c != ch_comma && c != ch_cr && c != ch_lf)))

/-- Whether a byte is an ASCII digit. -/
def is_digit (c : Nat) : Bool := decide (ch_0 ≤ c) && decide (c ≤ ch_9)

/-- A span without its optional leading `+` or `-`. -/
def unsigned_part : List Nat → List Nat
  | [] => []
  | c :: tl => if c = ch_plus ∨ c = ch_minus then tl else c :: tl

/-- The reference classification of a non-empty trimmed span, in the words of
the claim about it and not taken from `read_field`: `integer` when the span is
an optional leading sign followed only by ASCII digits (zero or more),
`double` when it is an optional leading sign followed only by ASCII digits
and exactly one period, `string` in every other case. -/
def reference_type (s : List Nat) : Nat :=
  if (unsigned_part s).all is_digit then integer_type
  else if (unsigned_part s).all (fun c => is_digit c || c == ch_period)
      && (unsigned_part s).count ch_period == 1 then double_type
  else string_type

/-- The number of 1 bits among the low `w` binary digits of `n`. -/
def bit_sum : Nat → Nat → Nat
  | 0, _ => 0
  | w + 1, n => n % 2 + bit_sum w (n / 2)


/-! ## The Bayesian classifier of the example (BayesianClassifier.cpp)

The class members the functions read are parameters here: `ns` holds
`domains[i].getNumberOfValues()` for the input columns `i < numberOfColumns - 1`,
so that `numberOfColumns` is `ns.length + 1`, and `K` is
`getOutputDomain().getNumberOfValues()`.  The vector `probabilitiesOfInputs`
is the list of its keys; the second component of an entry, a `float`, is left
out.  `size_t` arithmetic is taken without overflow. -/

/-- The function `calculateMapKey` (lines 209-221); `none` is the
`std::logic_error` thrown when `max_number_of_domain_values` is 0.  The
check of line 218 compares with the largest `unsigned long` and does not
throw. -/
def calculateMapKey (numberOfColumns max_number_of_domain_values : Nat)
    (effectColumn effectValue causeValue : Nat) : Option Nat :=
  if max_number_of_domain_values = 0 then none
  else
    let effect_column := effectColumn * max_number_of_domain_values
    let cause_value := causeValue * ((numberOfColumns - 1) * max_number_of_domain_values)
    some (effect_column + effectValue + cause_value)

/-- A `for` loop over the values of a list whose body appends entries to the
vector or throws: the entries appended by all the iterations, in order, or
`none` when an iteration throws. -/
def for_append {α : Type} : List α → (α → Option (List Nat)) → Option (List Nat)
  | [], _ => some []
  | a :: as, body =>
    match body a with
    | none => none
    | some xs =>
      match for_append as body with
      | none => none
      | some ys => some (xs ++ ys)

/-- The function `calculateProbabilitiesOfInputsWithoutData` (lines 127-144):
the keys appended to `probabilitiesOfInputs`, in the order of the three
loops. -/
def calculateProbabilitiesOfInputsWithoutData (ns : List Nat) (K : Nat)
    (max_number_of_domain_values : Nat) : Option (List Nat) :=
  for_append (List.range K) fun k =>
    for_append (List.range (ns.length + 1 - 1)) fun i =>
      for_append (List.range (ns.getD i 0)) fun j =>
        (calculateMapKey (ns.length + 1) max_number_of_domain_values i j k).map fun key => [key]

/-- The function `calculateProbabilitiesOfInputs` (lines 90-125) of a
classifier constructed without training data: `max_number_of_domain_values`,
0 from the constructor, becomes the largest number of values of an input
domain (lines 93-98), and as `data.size() == 0` the vector is filled by
`calculateProbabilitiesOfInputsWithoutData`. -/
def calculateProbabilitiesOfInputs (ns : List Nat) (K : Nat) : Option (List Nat) :=
  calculateProbabilitiesOfInputsWithoutData ns K (ns.foldl max 0)

/-- The local `key_offset` of `calculatePossibleOutputs` (lines 258-262): one
increment for every value of every input domain. -/
def key_offset (ns : List Nat) : Nat :=
  ((List.range (ns.length + 1 - 1)).map fun i => ns.getD i 0).sum

/-- The position of the iterator `key_it` of `calculatePossibleOutputs` at
input column `j` for the output value `i` (lines 268 and 283): it starts at
`i * key_offset` and has been advanced by the number of values of every column
before `j`. -/
def key_it_index (ns : List Nat) (i j : Nat) : Nat :=
  i * key_offset ns + ((List.range j).map fun c => ns.getD c 0).sum

/-! ## The keyword extraction example (keyword-extraction.cpp) -/

/-- The C library function `strcmp` on two strings given as their bytes
without the terminating NUL: the difference of the first two bytes that
differ, the terminator counting as 0. -/
def strcmp : List Nat → List Nat → Int
  | [], [] => 0
  | [], b :: _ => 0 - (b : Int)
  | a :: _, [] => (a : Int) - 0
  | a :: as, b :: bs => if a = b then strcmp as bs else (a : Int) - (b : Int)

/-- The algorithm `std::is_sorted` with a comparison `comp`: no element is
followed directly by one that compares less than it. -/
def is_sorted {α : Type} (comp : α → α → Bool) : List α → Bool
  | [] => true
  | [_] => true
  | a :: b :: rest => !comp b a && is_sorted comp (b :: rest)

/-- The table `english_stopwords` (lines 30-63). -/
def english_stopwords : List String := [
    "a", "about", "above", "above", "across", "after", "afterwards", "again", "against", "all",
    "almost", "alone", "along", "already", "also", "although", "always", "am", "among",
    "amongst", "amoungst", "amount", "an", "and", "another", "any", "anyhow", "anyone",
    "anything", "anyway", "anywhere", "are", "around", "as", "at", "back", "be", "became",
    "because", "become", "becomes", "becoming", "been", "before", "beforehand", "behind",
    "being", "below", "beside", "besides", "between", "beyond", "bill", "both", "bottom", "but",
    "by", "call", "can", "cannot", "cant", "co", "con", "could", "couldnt", "cry", "de",
    "describe", "detail", "do", "done", "down", "due", "during", "each", "eg", "eight",
    "either", "eleven", "else", "elsewhere", "empty", "enough", "etc", "even", "ever", "every",
    "everyone", "everything", "everywhere", "except", "few", "fifteen", "fify", "fill", "find",
    "fire", "first", "five", "for", "former", "formerly", "forty", "found", "four", "from",
    "front", "full", "further", "get", "give", "go", "had", "has", "hasnt", "have", "he",
    "hence", "her", "here", "hereafter", "hereby", "herein", "hereupon", "hers", "herself",
    "him", "himself", "his", "how", "however", "hundred", "i", "ie", "if", "in", "inc",
    "indeed", "interest", "into", "is", "it", "its", "itself", "keep", "last", "latter",
    "latterly", "least", "less", "ltd", "made", "many", "may", "me", "meanwhile", "might",
    "mill", "mine", "more", "moreover", "most", "mostly", "move", "much", "must", "my",
    "myself", "name", "namely", "neither", "never", "nevertheless", "next", "nine", "no",
    "nobody", "none", "noone", "nor", "not", "nothing", "now", "nowhere", "of", "off", "often",
    "on", "once", "one", "only", "onto", "or", "other", "others", "otherwise", "our", "ours",
    "ourselves", "out", "over", "own", "part", "per", "perhaps", "please", "put", "rather",
    "re", "same", "see", "seem", "seemed", "seeming", "seems", "serious", "several", "she",
    "should", "show", "side", "since", "sincere", "six", "sixty", "so", "some", "somehow",
    "someone", "something", "sometime", "sometimes", "somewhere", "still", "such", "system",
    "take", "ten", "than", "that", "the", "their", "them", "themselves", "then", "thence",
    "there", "thereafter", "thereby", "therefore", "therein", "thereupon", "these", "they",
    "thickv", "thin", "third", "this", "those", "though", "three", "through", "throughout",
    "thru", "thus", "to", "together", "too", "top", "toward", "towards", "twelve", "twenty",
    "two", "un", "under", "until", "up", "upon", "us", "very", "via", "was", "we", "well",
    "were", "what", "whatever", "when", "whence", "whenever", "where", "whereafter", "whereas",
    "whereby", "wherein", "whereupon", "wherever", "whether", "which", "while", "whither",
    "who", "whoever", "whole", "whom", "whose", "why", "will", "with", "within", "without",
    "would", "yet", "you", "your", "yours", "yourself", "yourselves"
  ]

/-- The function `set_intersection` of the example (lines 260-276) on a range
of integers and a range of pairs: the values written through `d_first`, in
order. -/
def set_intersection {α : Type} : List Int → List (Int × α) → List Int
  | [], _ => []
  | _ :: _, [] => []
  | x :: xs, p :: ps =>
    if x < p.1 then set_intersection xs (p :: ps)
    else if ¬(p.1 < x) then x :: set_intersection xs ps
    else set_intersection (x :: xs) ps
termination_by xs ps => xs.length + ps.length

/-! ## split_string (data-processing.h, lines 23-38) -/

/-- The algorithm `std::find_if(it, ite, ch == delim)` on the bytes from `it`
to `ite`: the index of the first byte equal to `delim`, or `ite`. -/
def find_delim (delim : Nat) : List Nat → Nat → Nat
  | [], it => it
  | c :: rest, it => if c = delim then it else find_delim delim rest (it + 1)

/-- The digits read by `atol`, accumulated in base ten up to the first byte
that is not a digit. -/
def atol_digits : List Nat → Int → Int
  | [], acc => acc
  | c :: rest, acc =>
    if is_digit c then atol_digits rest (acc * 10 + ((c : Int) - (ch_0 : Int))) else acc

/-- The C library function `atol`, values taken without overflow: leading
whitespace is skipped, an optional sign is read, then decimal digits up to the
first byte that is not one. -/
def atol (s : List Nat) : Int :=
  match s.dropWhile isspace with
  | [] => 0
  | c :: rest =>
    if c = ch_minus then -atol_digits rest 0
    else if c = ch_plus then atol_digits rest 0
    else atol_digits (c :: rest) 0

/-- The `while` loop of `split_string` (lines 31-36), run for at most `fuel`
iterations from the cursor `it` with the vector `result`: `none` when the
loop has not ended after `fuel` iterations. -/
def split_string_loop (s : List Nat) (delim : Nat) : Nat → Nat → List Int → Option (List Int)
  | 0, _, _ => none
  | fuel + 1, it, result =>
    let it := ltrim s it
    if it = s.length then some result
    else
      let sp := find_delim delim (s.drop it) it
      split_string_loop s delim fuel sp
        (result ++ [atol ((s.drop it).take (sp - it))])

/-- The function `split_string(string, delim)` run for at most `fuel`
iterations of its loop. -/
def split_string (fuel : Nat) (s : List Nat) (delim : Nat) : Option (List Int) :=
  split_string_loop s delim fuel 0 []


/-- The keys that the innermost loop of
`calculateProbabilitiesOfInputsWithoutData` appends for output value `k` and
column `i`, as numbers: the closed form the proofs work with. -/
def key_row (ns : List Nat) (M k i : Nat) : List Nat :=
  (List.range (ns.getD i 0)).map fun j => i * M + j + k * (ns.length * M)

/-- The keys that the two inner loops append for output value `k`. -/
def key_block (ns : List Nat) (M k : Nat) : List Nat :=
  (List.range ns.length).flatMap (key_row ns M k)


/-! ## read_field with the byte class of `ltrim` as a parameter

The sources do not hold `ltrim`, and the specification's "whitespace" does not
say whether it passes the record terminators CR and LF.  Where a result
depends on that, it is stated for `read_field_of skip`, in which `skip` is the
class of bytes `ltrim` passes; `read_field` is `read_field_of isspace`. -/

/-- Modelled from the spec: the loop of `ltrim` (missing from the sources) for
a class `skip` of bytes it passes, on the bytes from the cursor to `end`. -/
def ltrim_loop_of (skip : Nat → Bool) : List Nat → Nat → Nat
  | [], begin => begin
  | c :: rest, begin => if skip c then ltrim_loop_of skip rest (begin + 1) else begin

/-- Modelled from the spec: `ltrim(begin, end)`, missing from the sources, for
a class `skip` of bytes it passes: "Skip leading whitespace (outside quotes) -
ltrim", the cursor being advanced while it is not `end` and points at a byte
of `skip`.  The result is the new cursor. -/
def ltrim_of (skip : Nat → Bool) (s : List Nat) (begin : Nat) : Nat :=
  ltrim_loop_of skip (s.drop begin) begin

/-- The function `read_field(begin, end)` on the buffer `s` when the `ltrim`
of line 25 passes the bytes of `skip`; lines 22 and 27-124 as in
`read_field`. -/
def read_field_of (skip : Nat → Bool) (s : List Nat) (begin : Nat) :
    Except Fault FieldResult :=
  -- assert(begin != end)
  if begin = s.length then .error .assertion_failed
  else
    let begin := ltrim_of skip s begin
    -- `*begin`
    match s[begin]? with
    | none => .error .out_of_bounds
    | some c =>
      let in_quotes := c == ch_quote
      let begin := if in_quotes then begin + 1 else begin
      let st0 := init_state in_quotes c begin
      finish_field s in_quotes begin (scan in_quotes (s.drop st0.it) st0)

/-- The whitespace bytes other than the record terminators CR and LF (space,
horizontal tab, vertical tab and form feed): a class of bytes for `ltrim`
with which it stops at the end of a record. -/
def field_space (c : Nat) : Bool := isspace c && c != ch_cr && c != ch_lf


end data_processing
end cdmh

namespace cdmh
namespace data_processing

/-! ## The masks stay within the three type bits -/

theorem scan_body_it (c : Nat) (st : ScanState) : (scan_body c st).it = st.it := by
  unfold scan_body
  split_ifs <;> rfl

theorem scan_body_masks (c : Nat) (st : ScanState)
    (hi : incl_ok st.incl_type_mask) (he : excl_ok st.excl_type_mask) :
    incl_ok (scan_body c st).incl_type_mask ∧ excl_ok (scan_body c st).excl_type_mask := by
  obtain ⟨it, incl, excl, sp, ss⟩ := st
  simp only [incl_ok, excl_ok] at hi he
  unfold scan_body
  rcases hi with rfl | rfl | rfl | rfl <;> rcases he with rfl | rfl | rfl | rfl <;>
    split_ifs <;> simp only [incl_ok, excl_ok] <;> decide

/-! ## Unfolding the loop one step -/

theorem scan_nil (q : Bool) (st : ScanState) : scan q [] st = st := by
  simp [scan]

theorem scan_unquoted_step (c : Nat) (rest : List Nat) (st : ScanState)
    (hc : c ≠ ch_comma ∧ c ≠ ch_cr ∧ c ≠ ch_lf) :
    scan false (c :: rest) st
      = scan false rest
          { it := st.it + 1
            incl_type_mask := (scan_body c st).incl_type_mask
            excl_type_mask := (scan_body c st).excl_type_mask
            seen_period := (scan_body c st).seen_period
            seen_space := (scan_body c st).seen_space } := by
  cases rest <;> simp [scan, hc]

theorem scan_unquoted_stop (c : Nat) (rest : List Nat) (st : ScanState)
    (hc : ¬(c ≠ ch_comma ∧ c ≠ ch_cr ∧ c ≠ ch_lf)) :
    scan false (c :: rest) st = st := by
  cases rest <;> simp only [scan] <;> simp [hc]

theorem scan_quoted_step (c : Nat) (rest : List Nat) (st : ScanState) (hc : c ≠ ch_quote) :
    scan true (c :: rest) st
      = scan true rest
          { it := st.it + 1
            incl_type_mask := st.incl_type_mask
            excl_type_mask := st.excl_type_mask
            seen_period := st.seen_period
            seen_space := st.seen_space } := by
  cases rest <;> simp [scan, hc]

theorem scan_quoted_pair (rest : List Nat) (st : ScanState) :
    scan true (ch_quote :: ch_quote :: rest) st
      = scan true rest
          { it := st.it + 1 + 1
            incl_type_mask := st.incl_type_mask
            excl_type_mask := st.excl_type_mask
            seen_period := st.seen_period
            seen_space := st.seen_space } := by
  simp [scan]

theorem scan_quoted_last (st : ScanState) : scan true [ch_quote] st = st := by
  simp [scan]

theorem scan_quoted_stop (c1 : Nat) (rest : List Nat) (st : ScanState) (h1 : c1 ≠ ch_quote) :
    scan true (ch_quote :: c1 :: rest) st = st := by
  simp [scan, h1]

theorem scan_masks (q : Bool) (l : List Nat) (st : ScanState) :
    incl_ok st.incl_type_mask → excl_ok st.excl_type_mask →
    incl_ok (scan q l st).incl_type_mask ∧ excl_ok (scan q l st).excl_type_mask := by
  induction l, st using scan.induct q with
  | case1 st => intro hi he; rw [scan_nil]; exact ⟨hi, he⟩
  | case2 c rest st hq hc ih =>
    intro hi he; subst hq; rw [scan_quoted_step c rest st hc]; exact ih hi he
  | case3 c st hq hc =>
    intro hi he
    have hc1 : c = ch_quote := by simpa using hc
    subst hq; subst hc1; rw [scan_quoted_last]; exact ⟨hi, he⟩
  | case4 c st hq hc rest1 ih =>
    intro hi he
    have hc1 : c = ch_quote := by simpa using hc
    subst hq; subst hc1; rw [scan_quoted_pair]; exact ih hi he
  | case5 c st hq hc c1 rest1 h1 =>
    intro hi he
    have hc1 : c = ch_quote := by simpa using hc
    subst hq; subst hc1; rw [scan_quoted_stop c1 rest1 st h1]; exact ⟨hi, he⟩
  | case6 c rest st hq hc ih =>
    intro hi he
    have hq1 : q = false := by simpa using hq
    have hb := scan_body_masks c st hi he
    subst hq1; rw [scan_unquoted_step c rest st hc]; exact ih hb.1 hb.2
  | case7 c rest st hq hc =>
    intro hi he
    have hq1 : q = false := by simpa using hq
    subst hq1; rw [scan_unquoted_stop c rest st hc]; exact ⟨hi, he⟩

theorem resolve_masks (incl excl : Nat) (hi : incl_ok incl) (he : excl_ok excl) :
    (resolve incl excl = string_type ∨ resolve incl excl = double_type ∨
      resolve incl excl = integer_type) ∧ bit_count (resolve incl excl) = 1 := by
  simp only [incl_ok, excl_ok] at hi he
  rcases hi with rfl | rfl | rfl | rfl <;> rcases he with rfl | rfl | rfl | rfl <;> decide

end data_processing
end cdmh

namespace cdmh
namespace data_processing

theorem init_masks (q : Bool) (c begin : Nat) :
    incl_ok (init_state q c begin).incl_type_mask ∧
      excl_ok (init_state q c begin).excl_type_mask := by
  unfold init_state
  split_ifs <;> simp only [incl_ok, excl_ok] <;> decide

theorem finish_field_masks (s : List Nat) (q : Bool) (begin : Nat) (st : ScanState)
    (r : FieldResult) (hi : incl_ok st.incl_type_mask) (he : excl_ok st.excl_type_mask)
    (h : finish_field s q begin st = .ok r) :
    (r.mask = string_type ∨ r.mask = double_type ∨ r.mask = integer_type ∨
      r.mask = null_type) ∧ bit_count r.mask = 1 := by
  have hm := resolve_masks _ _ hi he
  have hm1 : resolve st.incl_type_mask st.excl_type_mask = string_type ∨
      resolve st.incl_type_mask st.excl_type_mask = double_type ∨
      resolve st.incl_type_mask st.excl_type_mask = integer_type ∨
      resolve st.incl_type_mask st.excl_type_mask = null_type := by
    rcases hm.1 with h1 | h1 | h1
    · exact Or.inl h1
    · exact Or.inr (Or.inl h1)
    · exact Or.inr (Or.inr (Or.inl h1))
  have hnull : (null_type = string_type ∨ null_type = double_type ∨
      null_type = integer_type ∨ null_type = null_type) ∧ bit_count null_type = 1 :=
    ⟨Or.inr (Or.inr (Or.inr rfl)), by decide⟩
  unfold finish_field at h
  cases q
  · simp only [Bool.not_false, Bool.false_eq_true, if_false, if_true] at h
    split_ifs at h
    · cases h; exact hnull
    · cases h; exact ⟨hm1, hm.2⟩
  · simp only [Bool.not_true, Bool.false_eq_true, if_false, if_true] at h
    split_ifs at h
    · cases h; exact hnull
    · split at h
      · cases h
      · split_ifs at h
        cases h; exact ⟨hm1, hm.2⟩

/-! ## The trimming helpers on a buffer of known shape -/

theorem ltrim_loop_append (lead tail : List Nat) (begin : Nat)
    (hlead : ∀ x ∈ lead, isspace x = true) :
    ltrim_loop (lead ++ tail) begin = ltrim_loop tail (begin + lead.length) := by
  induction lead generalizing begin with
  | nil => simp
  | cons x xs ih =>
    have hx : isspace x = true := hlead x (by simp)
    have hxs : ∀ y ∈ xs, isspace y = true := fun y hy => hlead y (by simp [hy])
    rw [List.cons_append]
    show (if isspace x = true then ltrim_loop (xs ++ tail) (begin + 1) else begin) = _
    rw [if_pos hx, ih _ hxs, List.length_cons]
    congr 1
    omega

theorem ltrim_skip (pre lead : List Nat) (c : Nat) (tail : List Nat)
    (hlead : ∀ x ∈ lead, isspace x = true) (hc : isspace c = false) :
    ltrim (pre ++ (lead ++ c :: tail)) pre.length = pre.length + lead.length := by
  unfold ltrim
  rw [List.drop_left, ltrim_loop_append lead _ _ hlead]
  simp [ltrim_loop, hc]

theorem getElem?_mid (p : List Nat) (c : Nat) (tail : List Nat) :
    (p ++ c :: tail)[p.length]? = some c := by
  rw [List.getElem?_append_right (le_refl _)]
  simp

theorem rtrim_stop (s : List Nat) (begin e z : Nat) (hb : begin ≠ e + 1)
    (hz : s[e]? = some z) (hws : isspace z = false) :
    rtrim s begin (e + 1) = e + 1 := by
  simp [rtrim, hb, hz, hws]

theorem rtrim_le (s : List Nat) (begin e : Nat) : rtrim s begin e ≤ e := by
  induction e with
  | zero => simp [rtrim]
  | succ n ih =>
    unfold rtrim
    split_ifs
    · exact le_refl _
    · split
      · split_ifs
        · omega
        · exact le_refl _
      · exact le_refl _

theorem rtrim_gt (s : List Nat) (begin c : Nat) (hc : s[begin]? = some c)
    (hws : isspace c = false) (e : Nat) (he : begin < e) : begin < rtrim s begin e := by
  induction e with
  | zero => omega
  | succ n ih =>
    unfold rtrim
    split_ifs with h1
    · omega
    · split
      · rename_i z hz
        split_ifs with h2
        · have hne : begin ≠ n := by
            intro h
            subst h
            rw [hc] at hz
            cases hz
            rw [hws] at h2
            cases h2
          exact ih (by omega)
        · exact he
      · exact he

/-! ## The loop outside quotes on a buffer of known shape -/

theorem scan_unquoted_append (field rest : List Nat) (st : ScanState)
    (hfield : ∀ x ∈ field, x ≠ ch_comma ∧ x ≠ ch_cr ∧ x ≠ ch_lf)
    (hrest : at_field_end rest = true) :
    scan false (field ++ rest) st = scan false field st := by
  induction field generalizing st with
  | nil =>
    cases rest with
    | nil => rfl
    | cons t r =>
      have ht : ¬(t ≠ ch_comma ∧ t ≠ ch_cr ∧ t ≠ ch_lf) := by
        simp only [at_field_end, Bool.or_eq_true, beq_iff_eq] at hrest
        tauto
      rw [List.nil_append, scan_unquoted_stop t r st ht, scan_nil]
  | cons x xs ih =>
    have hx := hfield x (by simp)
    have hxs : ∀ y ∈ xs, y ≠ ch_comma ∧ y ≠ ch_cr ∧ y ≠ ch_lf :=
      fun y hy => hfield y (by simp [hy])
    rw [List.cons_append, scan_unquoted_step x _ st hx, scan_unquoted_step x _ st hx]
    exact ih _ hxs

theorem scan_unquoted_it (field : List Nat) (st : ScanState)
    (hfield : ∀ x ∈ field, x ≠ ch_comma ∧ x ≠ ch_cr ∧ x ≠ ch_lf) :
    (scan false field st).it = st.it + field.length := by
  induction field generalizing st with
  | nil => simp [scan_nil]
  | cons x xs ih =>
    have hx := hfield x (by simp)
    have hxs : ∀ y ∈ xs, y ≠ ch_comma ∧ y ≠ ch_cr ∧ y ≠ ch_lf :=
      fun y hy => hfield y (by simp [hy])
    rw [scan_unquoted_step x _ st hx, ih _ hxs]
    simp only [List.length_cons]
    omega

/-! ## An unquoted field, in general -/

theorem finish_field_unquoted (s : List Nat) (begin : Nat) (st : ScanState)
    (hi : incl_ok st.incl_type_mask) (he : excl_ok st.excl_type_mask)
    (hne : begin ≠ rtrim s begin st.it) :
    finish_field s false begin st
      = .ok { first := begin, last := rtrim s begin st.it
              mask := resolve st.incl_type_mask st.excl_type_mask
              cursor := rtrim s begin st.it } := by
  have hm := (resolve_masks _ _ hi he).2
  unfold finish_field
  simp only [Bool.not_false, Bool.false_eq_true, if_false, if_true]
  rw [if_neg hne, if_neg (by simpa using hm)]

theorem read_field_unquoted (pre lead : List Nat) (c : Nat) (tl rest : List Nat)
    (hlead : ∀ x ∈ lead, isspace x = true) (hc : isspace c = false) (hq : c ≠ ch_quote)
    (hfield : ∀ x ∈ c :: tl, x ≠ ch_comma ∧ x ≠ ch_cr ∧ x ≠ ch_lf)
    (hrest : at_field_end rest = true) :
    read_field (pre ++ (lead ++ (c :: (tl ++ rest)))) pre.length
      = .ok { first := pre.length + lead.length
              last := rtrim (pre ++ (lead ++ (c :: (tl ++ rest)))) (pre.length + lead.length)
                (pre.length + lead.length + (tl.length + 1))
              mask := resolve
                (scan false (if c = ch_minus ∨ c = ch_plus then tl else c :: tl)
                  (init_state false c (pre.length + lead.length))).incl_type_mask
                (scan false (if c = ch_minus ∨ c = ch_plus then tl else c :: tl)
                  (init_state false c (pre.length + lead.length))).excl_type_mask
              cursor := rtrim (pre ++ (lead ++ (c :: (tl ++ rest)))) (pre.length + lead.length)
                (pre.length + lead.length + (tl.length + 1)) }
      ∧ pre.length + lead.length
          < rtrim (pre ++ (lead ++ (c :: (tl ++ rest)))) (pre.length + lead.length)
              (pre.length + lead.length + (tl.length + 1)) := by
  have hget : (pre ++ (lead ++ (c :: (tl ++ rest))))[pre.length + lead.length]? = some c := by
    have := getElem?_mid (pre ++ lead) c (tl ++ rest)
    simpa [List.append_assoc] using this
  have hgt := rtrim_gt _ _ c hget hc (pre.length + lead.length + (tl.length + 1)) (by omega)
  refine ⟨?_, hgt⟩
  have hlen : pre.length ≠ (pre ++ (lead ++ (c :: (tl ++ rest)))).length := by
    simp only [List.length_append, List.length_cons]
    omega
  have hdrop0 : List.drop (pre.length + lead.length) (pre ++ (lead ++ (c :: (tl ++ rest))))
      = c :: (tl ++ rest) := by
    have h := List.drop_left (pre ++ lead) (c :: (tl ++ rest))
    have e1 : (pre ++ lead) ++ (c :: (tl ++ rest)) = pre ++ (lead ++ (c :: (tl ++ rest))) := by
      simp
    have e2 : (pre ++ lead).length = pre.length + lead.length := by simp
    rw [e1, e2] at h
    exact h
  have hdrop1 : List.drop (pre.length + lead.length + 1) (pre ++ (lead ++ (c :: (tl ++ rest))))
      = tl ++ rest := by
    have h := List.drop_left (pre ++ (lead ++ [c])) (tl ++ rest)
    have e1 : (pre ++ (lead ++ [c])) ++ (tl ++ rest) = pre ++ (lead ++ (c :: (tl ++ rest))) := by
      simp
    have e2 : (pre ++ (lead ++ [c])).length = pre.length + lead.length + 1 := by
      simp [Nat.add_assoc]
    rw [e1, e2] at h
    exact h
  have hqb : (c == ch_quote) = false := by simpa using hq
  have htl : ∀ x ∈ tl, x ≠ ch_comma ∧ x ≠ ch_cr ∧ x ≠ ch_lf :=
    fun x hx => hfield x (by simp [hx])
  have h0 := init_masks false c (pre.length + lead.length)
  unfold read_field
  rw [if_neg hlen]
  simp only [ltrim_skip pre lead c (tl ++ rest) hlead hc, hget, hqb, Bool.false_eq_true, if_false]
  by_cases hs : c = ch_minus ∨ c = ch_plus
  · have hit : (init_state false c (pre.length + lead.length)).it
        = pre.length + lead.length + 1 := by
      rcases hs with rfl | rfl <;> rfl
    rw [hit, hdrop1, scan_unquoted_append tl rest _ htl hrest, if_pos hs]
    have hsm := scan_masks false tl _ h0.1 h0.2
    have hsi := scan_unquoted_it tl (init_state false c (pre.length + lead.length)) htl
    rw [hit] at hsi
    have hsi1 : (scan false tl (init_state false c (pre.length + lead.length))).it
        = pre.length + lead.length + (tl.length + 1) := by omega
    rw [finish_field_unquoted _ _ _ hsm.1 hsm.2 (by rw [hsi1]; omega), hsi1]
  · have hit : (init_state false c (pre.length + lead.length)).it
        = pre.length + lead.length := by
      have h1 : c ≠ ch_minus := fun h => hs (Or.inl h)
      have h2 : c ≠ ch_plus := fun h => hs (Or.inr h)
      simp [init_state, h1, h2]
    have happ := scan_unquoted_append (c :: tl) rest
      (init_state false c (pre.length + lead.length)) hfield hrest
    rw [List.cons_append] at happ
    rw [hit, hdrop0, happ, if_neg hs]
    have hsm := scan_masks false (c :: tl) _ h0.1 h0.2
    have hsi := scan_unquoted_it (c :: tl) (init_state false c (pre.length + lead.length)) hfield
    rw [hit] at hsi
    have hsi1 : (scan false (c :: tl) (init_state false c (pre.length + lead.length))).it
        = pre.length + lead.length + (tl.length + 1) := by
      rw [hsi, List.length_cons]
    rw [finish_field_unquoted _ _ _ hsm.1 hsm.2 (by rw [hsi1]; omega), hsi1]

theorem rtrim_no_space (pre lead : List Nat) (c : Nat) (tl rest : List Nat)
    (h : ∀ z ∈ c :: tl, isspace z = false) :
    rtrim (pre ++ (lead ++ (c :: (tl ++ rest)))) (pre.length + lead.length)
        (pre.length + lead.length + (tl.length + 1))
      = pre.length + lead.length + (tl.length + 1) := by
  rcases List.eq_nil_or_concat (c :: tl) with h0 | ⟨init, z, h0⟩
  · cases h0
  · rw [List.concat_eq_append] at h0
    have hz : isspace z = false := h z (by rw [h0]; simp)
    have hl : tl.length = init.length := by
      have := congrArg List.length h0
      simp only [List.length_cons, List.length_append, List.length_nil] at this
      omega
    have hs : pre ++ (lead ++ (c :: (tl ++ rest))) = (pre ++ (lead ++ init)) ++ z :: rest := by
      rw [← List.cons_append, h0]
      simp
    have hg := getElem?_mid (pre ++ (lead ++ init)) z rest
    rw [← hs] at hg
    have e2 : (pre ++ (lead ++ init)).length = pre.length + lead.length + tl.length := by
      simp only [List.length_append]
      omega
    rw [e2] at hg
    have := rtrim_stop (pre ++ (lead ++ (c :: (tl ++ rest)))) (pre.length + lead.length)
      (pre.length + lead.length + tl.length) z (by omega) hg hz
    rw [← Nat.add_assoc]
    exact this

theorem digit_props (d : Nat) (h : ch_0 ≤ d ∧ d ≤ ch_9) :
    isspace d = false ∧ d ≠ ch_quote ∧ (d ≠ ch_comma ∧ d ≠ ch_cr ∧ d ≠ ch_lf) ∧
      ¬(d = ch_minus ∨ d = ch_plus) ∧ d ≠ ch_period := by
  simp only [ch_0, ch_9] at h
  simp only [isspace, ch_space, ch_tab, ch_cr, ch_quote, ch_comma, ch_lf, ch_minus, ch_plus,
    ch_period, Bool.or_eq_false_iff, Bool.and_eq_false_iff, beq_eq_false_iff_ne,
    decide_eq_false_iff_not]
  omega

theorem scan_digits (ds more : List Nat) (st : ScanState)
    (hd : ∀ d ∈ ds, ch_0 ≤ d ∧ d ≤ ch_9) (hs : st.seen_space = false)
    (hi : incl_ok st.incl_type_mask) :
    scan false (ds ++ more) st
      = scan false more
          { st with
            it := st.it + ds.length
            incl_type_mask :=
              if ds = [] then st.incl_type_mask
              else string_type ||| (double_type ||| integer_type) } := by
  induction ds generalizing st with
  | nil => simp
  | cons d ds ih =>
    have h1 := hd d (by simp)
    have hds : ∀ x ∈ ds, ch_0 ≤ x ∧ x ≤ ch_9 := fun x hx => hd x (by simp [hx])
    have hb : scan_body d st
        = { st with incl_type_mask := string_type ||| (double_type ||| integer_type) } := by
      obtain ⟨it, incl, excl, sp, ss⟩ := st
      simp only at hs hi
      subst hs
      simp only [scan_body, h1, and_self, if_true, Bool.false_eq_true, if_false]
      simp only [incl_ok] at hi
      rcases hi with rfl | rfl | rfl | rfl <;> rfl
    have h7 : incl_ok (string_type ||| (double_type ||| integer_type)) := by
      simp only [incl_ok]; decide
    rw [List.cons_append, scan_unquoted_step d _ st (digit_props d h1).2.2.1, hb]
    simp only []
    rw [ih ⟨st.it + 1, string_type ||| (double_type ||| integer_type), st.excl_type_mask,
      st.seen_period, st.seen_space⟩ hds hs h7]
    congr 1
    simp only [List.length_cons, reduceCtorEq, if_false, ScanState.mk.injEq, and_true, true_and]
    constructor
    · omega
    · split_ifs <;> rfl

theorem init_state_plain (c begin : Nat) (hs : ¬(c = ch_minus ∨ c = ch_plus)) :
    init_state false c begin
      = { it := begin, incl_type_mask := string_type, excl_type_mask := 0
          seen_period := false, seen_space := false } := by
  have h1 : c ≠ ch_minus := fun h => hs (Or.inl h)
  have h2 : c ≠ ch_plus := fun h => hs (Or.inr h)
  simp [init_state, h1, h2]

theorem init_state_sign (c begin : Nat) (hs : c = ch_minus ∨ c = ch_plus) :
    init_state false c begin
      = { it := begin + 1, incl_type_mask := string_type ||| (double_type ||| integer_type)
          excl_type_mask := 0, seen_period := false, seen_space := false } := by
  rcases hs with rfl | rfl <;> rfl

/-- Claim C2: an unquoted field made of an optional leading `+` or `-` and one
or more ASCII digits, ended by a comma, CR, LF or the end of the buffer, is
returned whole with the type `integer`. -/
theorem read_field_signed_digits_integer (pre sign digits rest : List Nat)
    (hsign : sign = [] ∨ sign = [ch_plus] ∨ sign = [ch_minus]) (hne : digits ≠ [])
    (hdig : ∀ d ∈ digits, ch_0 ≤ d ∧ d ≤ ch_9) (hrest : at_field_end rest = true) :
    read_field (pre ++ sign ++ digits ++ rest) pre.length
      = .ok { first := pre.length, last := pre.length + sign.length + digits.length
              mask := integer_type, cursor := pre.length + sign.length + digits.length } := by
  obtain ⟨d, ds, rfl⟩ := List.exists_cons_of_ne_nil hne
  have hd := digit_props d (hdig d (by simp))
  have hsp : ∀ x ∈ d :: ds, isspace x = false := fun x hx => (digit_props x (hdig x hx)).1
  have hnt : ∀ x ∈ d :: ds, x ≠ ch_comma ∧ x ≠ ch_cr ∧ x ≠ ch_lf :=
    fun x hx => (digit_props x (hdig x hx)).2.2.1
  have h1 : incl_ok string_type := by simp only [incl_ok]; decide
  have h7 : incl_ok (string_type ||| (double_type ||| integer_type)) := by
    simp only [incl_ok]; decide
  rcases hsign with rfl | hs
  · have e : pre ++ [] ++ d :: ds ++ rest = pre ++ (d :: (ds ++ rest)) := by simp
    have h := (read_field_unquoted pre [] d ds rest (by simp) hd.1 hd.2.1 hnt hrest).1
    have hsc := scan_digits (d :: ds) [] ⟨pre.length, string_type, 0, false, false⟩ hdig rfl h1
    rw [rtrim_no_space pre [] d ds rest hsp, if_neg hd.2.2.2.1,
      init_state_plain d _ hd.2.2.2.1] at h
    simp only [List.nil_append, List.length_nil, Nat.add_zero] at h
    rw [List.append_nil, scan_nil] at hsc
    rw [e, h, hsc]
    simp only [List.length_nil, List.length_cons, Nat.add_zero, reduceCtorEq, if_false]
    rfl
  · have hc : ∃ c, sign = [c] ∧ (c = ch_minus ∨ c = ch_plus) := by
      rcases hs with rfl | rfl
      · exact ⟨ch_plus, rfl, Or.inr rfl⟩
      · exact ⟨ch_minus, rfl, Or.inl rfl⟩
    obtain ⟨c, rfl, hc⟩ := hc
    have hcp : isspace c = false ∧ c ≠ ch_quote ∧ (c ≠ ch_comma ∧ c ≠ ch_cr ∧ c ≠ ch_lf) := by
      rcases hc with rfl | rfl <;> decide
    have e : pre ++ [c] ++ d :: ds ++ rest = pre ++ (c :: ((d :: ds) ++ rest)) := by simp
    have hnt1 : ∀ x ∈ c :: d :: ds, x ≠ ch_comma ∧ x ≠ ch_cr ∧ x ≠ ch_lf := by
      intro x hx
      rcases List.mem_cons.1 hx with rfl | hx
      · exact hcp.2.2
      · exact hnt x hx
    have hsp1 : ∀ x ∈ c :: d :: ds, isspace x = false := by
      intro x hx
      rcases List.mem_cons.1 hx with rfl | hx
      · exact hcp.1
      · exact hsp x hx
    have h := (read_field_unquoted pre [] c (d :: ds) rest (by simp) hcp.1 hcp.2.1 hnt1 hrest).1
    have hsc := scan_digits (d :: ds) []
      ⟨pre.length + 1, string_type ||| (double_type ||| integer_type), 0, false, false⟩
      hdig rfl h7
    rw [rtrim_no_space pre [] c (d :: ds) rest hsp1, if_pos hc, init_state_sign c _ hc] at h
    simp only [List.nil_append, List.length_nil, Nat.add_zero] at h
    rw [List.append_nil, scan_nil] at hsc
    rw [e, h, hsc]
    simp only [List.length_nil, List.length_cons, Nat.add_zero, reduceCtorEq, if_false]
    have hr : resolve (string_type ||| (double_type ||| integer_type)) 0 = integer_type := by
      decide
    rw [hr]
    congr 2 <;> omega

theorem rtrim_trail (s : List Nat) (begin : Nat) (p : List Nat) (z : Nat)
    (trail rest : List Nat) (hs : s = p ++ z :: (trail ++ rest)) (hz : isspace z = false)
    (htrail : ∀ x ∈ trail, isspace x = true) (hb : begin ≤ p.length) :
    rtrim s begin (p.length + 1 + trail.length) = p.length + 1 := by
  induction trail using List.reverseRecOn generalizing rest with
  | nil =>
    have hg : s[p.length]? = some z := by rw [hs]; exact getElem?_mid p z _
    exact rtrim_stop s begin p.length z (by omega) hg hz
  | append_singleton t w ih =>
    have hw : isspace w = true := htrail w (by simp)
    have ht : ∀ x ∈ t, isspace x = true := fun x hx => htrail x (by simp [hx])
    have hs1 : s = (p ++ z :: t) ++ w :: rest := by rw [hs]; simp
    have hg : s[p.length + 1 + t.length]? = some w := by
      have := getElem?_mid (p ++ z :: t) w rest
      rw [← hs1] at this
      have e : (p ++ z :: t).length = p.length + 1 + t.length := by
        simp only [List.length_append, List.length_cons]
        omega
      rw [e] at this
      exact this
    have hlen : p.length + 1 + (t ++ [w]).length = (p.length + 1 + t.length) + 1 := by
      simp only [List.length_append, List.length_cons, List.length_nil]
      omega
    rw [hlen]
    unfold rtrim
    rw [if_neg (by omega)]
    simp only [hg, hw, if_true]
    exact ih (w :: rest) (by rw [hs]; simp) ht

theorem rtrim_field_no_space (p field rest : List Nat) (begin : Nat) (hne : field ≠ [])
    (h : ∀ z ∈ field, isspace z = false) (hb : begin ≤ p.length) :
    rtrim (p ++ (field ++ rest)) begin (p.length + field.length) = p.length + field.length := by
  rcases List.eq_nil_or_concat field with h0 | ⟨init, z, h0⟩
  · exact absurd h0 hne
  · rw [List.concat_eq_append] at h0
    subst h0
    have hz : isspace z = false := h z (by simp)
    have := rtrim_trail (p ++ (init ++ [z] ++ rest)) begin (p ++ init) z [] rest (by simp) hz
      (by simp) (by simp only [List.length_append]; omega)
    simpa [Nat.add_assoc] using this

/-! ## The loop outside quotes, split at a byte -/

theorem scan_unquoted_split (a more : List Nat) (st : ScanState)
    (ha : ∀ x ∈ a, x ≠ ch_comma ∧ x ≠ ch_cr ∧ x ≠ ch_lf) :
    scan false (a ++ more) st = scan false more (scan false a st) := by
  induction a generalizing st with
  | nil => rw [List.nil_append, scan_nil]
  | cons x xs ih =>
    have hx := ha x (by simp)
    have hxs : ∀ y ∈ xs, y ≠ ch_comma ∧ y ≠ ch_cr ∧ y ≠ ch_lf :=
      fun y hy => ha y (by simp [hy])
    rw [List.cons_append, scan_unquoted_step x _ st hx, scan_unquoted_step x _ st hx]
    exact ih _ hxs

theorem scan_unquoted_preserves (P : Nat → Nat → Bool → Bool → Prop)
    (hP : ∀ c st, P st.incl_type_mask st.excl_type_mask st.seen_period st.seen_space →
      P (scan_body c st).incl_type_mask (scan_body c st).excl_type_mask
        (scan_body c st).seen_period (scan_body c st).seen_space)
    (l : List Nat) (st : ScanState)
    (h : P st.incl_type_mask st.excl_type_mask st.seen_period st.seen_space) :
    P (scan false l st).incl_type_mask (scan false l st).excl_type_mask
      (scan false l st).seen_period (scan false l st).seen_space := by
  induction l generalizing st with
  | nil => rw [scan_nil]; exact h
  | cons x xs ih =>
    by_cases hx : x ≠ ch_comma ∧ x ≠ ch_cr ∧ x ≠ ch_lf
    · rw [scan_unquoted_step x xs st hx]
      exact ih _ (hP x st h)
    · rw [scan_unquoted_stop x xs st hx]
      exact h

/-! ## Digits around one period -/

theorem scan_body_first_period (st : ScanState) (hs : st.seen_space = false)
    (hp : st.seen_period = false) :
    scan_body ch_period st
      = { it := st.it
          incl_type_mask := st.incl_type_mask ||| double_type
          excl_type_mask := st.excl_type_mask ||| integer_type
          seen_period := true
          seen_space := st.seen_space } := by
  obtain ⟨it, incl, excl, sp, ss⟩ := st
  simp only at hs hp
  subst hs hp
  rfl

theorem mask_double (D d2 : List Nat) (n i0 : Nat) (hi : incl_ok i0)
    (hD : ∀ d ∈ D, ch_0 ≤ d ∧ d ≤ ch_9) (hd2 : ∀ d ∈ d2, ch_0 ≤ d ∧ d ≤ ch_9) :
    resolve (scan false (D ++ ch_period :: d2) ⟨n, i0, 0, false, false⟩).incl_type_mask
        (scan false (D ++ ch_period :: d2) ⟨n, i0, 0, false, false⟩).excl_type_mask
      = double_type := by
  have hper : ch_period ≠ ch_comma ∧ ch_period ≠ ch_cr ∧ ch_period ≠ ch_lf := by decide
  have h7 : incl_ok (string_type ||| (double_type ||| integer_type)) := by
    simp only [incl_ok]; decide
  have hi2 : incl_ok ((if D = [] then i0 else string_type ||| (double_type ||| integer_type))
      ||| double_type) := by
    simp only [incl_ok] at hi ⊢
    split_ifs
    · rcases hi with rfl | rfl | rfl | rfl <;> decide
    · decide
  rw [scan_digits D _ _ hD rfl hi, scan_unquoted_step ch_period d2 _ hper,
    scan_body_first_period _ rfl rfl]
  simp only []
  have h2 := scan_digits d2 [] ⟨n + D.length + 1,
    (if D = [] then i0 else string_type ||| (double_type ||| integer_type)) ||| double_type,
    0 ||| integer_type, true, false⟩ hd2 rfl hi2
  rw [List.append_nil, scan_nil] at h2
  rw [h2]
  simp only [incl_ok] at hi
  rcases hi with rfl | rfl | rfl | rfl <;> split_ifs <;> simp only [] <;> decide

/-- Claim C3: an unquoted field made of an optional leading sign, ASCII digits
and exactly one period, with at least one digit and nothing else, is returned
whole with the type `double`. -/
theorem read_field_one_period_double (pre sign d1 d2 rest : List Nat)
    (hsign : sign = [] ∨ sign = [ch_plus] ∨ sign = [ch_minus]) (hne : d1 ≠ [] ∨ d2 ≠ [])
    (hd1 : ∀ d ∈ d1, ch_0 ≤ d ∧ d ≤ ch_9) (hd2 : ∀ d ∈ d2, ch_0 ≤ d ∧ d ≤ ch_9)
    (hrest : at_field_end rest = true) :
    read_field (pre ++ sign ++ d1 ++ [ch_period] ++ d2 ++ rest) pre.length
      = .ok { first := pre.length
              last := pre.length + sign.length + d1.length + 1 + d2.length
              mask := double_type
              cursor := pre.length + sign.length + d1.length + 1 + d2.length } := by
  have h1 : incl_ok string_type := by simp only [incl_ok]; decide
  have h7 : incl_ok (string_type ||| (double_type ||| integer_type)) := by
    simp only [incl_ok]; decide
  have hper : isspace ch_period = false ∧ ch_period ≠ ch_quote ∧
      (ch_period ≠ ch_comma ∧ ch_period ≠ ch_cr ∧ ch_period ≠ ch_lf) ∧
      ¬(ch_period = ch_minus ∨ ch_period = ch_plus) := by decide
  have hsp2 : ∀ x ∈ ch_period :: d2, isspace x = false := by
    intro x hx
    rcases List.mem_cons.1 hx with rfl | hx
    · exact hper.1
    · exact (digit_props x (hd2 x hx)).1
  have hnt2 : ∀ x ∈ ch_period :: d2, x ≠ ch_comma ∧ x ≠ ch_cr ∧ x ≠ ch_lf := by
    intro x hx
    rcases List.mem_cons.1 hx with rfl | hx
    · exact hper.2.2.1
    · exact (digit_props x (hd2 x hx)).2.2.1
  have hsp : ∀ x ∈ d1 ++ ch_period :: d2, isspace x = false := by
    intro x hx
    rcases List.mem_append.1 hx with hx | hx
    · exact (digit_props x (hd1 x hx)).1
    · exact hsp2 x hx
  have hnt : ∀ x ∈ d1 ++ ch_period :: d2, x ≠ ch_comma ∧ x ≠ ch_cr ∧ x ≠ ch_lf := by
    intro x hx
    rcases List.mem_append.1 hx with hx | hx
    · exact (digit_props x (hd1 x hx)).2.2.1
    · exact hnt2 x hx
  rcases hsign with rfl | hs
  · cases d1 with
    | nil =>
      have e : pre ++ [] ++ [] ++ [ch_period] ++ d2 ++ rest
          = pre ++ ([] ++ (ch_period :: (d2 ++ rest))) := by simp
      have h := (read_field_unquoted pre [] ch_period d2 rest (by simp) hper.1 hper.2.1
        hnt2 hrest).1
      rw [rtrim_no_space pre [] ch_period d2 rest hsp2, if_neg hper.2.2.2,
        init_state_plain ch_period _ hper.2.2.2] at h
      have hm := mask_double [] d2 (pre.length + ([] : List Nat).length) string_type h1
        (by simp) hd2
      rw [List.nil_append] at hm
      rw [e, h, hm]
      simp only [List.length_nil, Nat.add_zero]
      congr 2 <;> omega
    | cons d ds =>
      have hd := digit_props d (hd1 d (by simp))
      have hds : ∀ x ∈ ds, ch_0 ≤ x ∧ x ≤ ch_9 := fun x hx => hd1 x (by simp [hx])
      have e : pre ++ [] ++ d :: ds ++ [ch_period] ++ d2 ++ rest
          = pre ++ ([] ++ (d :: ((ds ++ ch_period :: d2) ++ rest))) := by simp
      have h := (read_field_unquoted pre [] d (ds ++ ch_period :: d2) rest (by simp) hd.1
        hd.2.1 hnt hrest).1
      rw [rtrim_no_space pre [] d (ds ++ ch_period :: d2) rest hsp, if_neg hd.2.2.2.1,
        init_state_plain d _ hd.2.2.2.1] at h
      have hm := mask_double (d :: ds) d2 (pre.length + ([] : List Nat).length) string_type h1
        hd1 hd2
      rw [List.cons_append] at hm
      rw [e, h, hm]
      simp only [List.length_nil, List.length_cons, List.length_append, Nat.add_zero]
      congr 2 <;> omega
  · have hc : ∃ c, sign = [c] ∧ (c = ch_minus ∨ c = ch_plus) := by
      rcases hs with rfl | rfl
      · exact ⟨ch_plus, rfl, Or.inr rfl⟩
      · exact ⟨ch_minus, rfl, Or.inl rfl⟩
    obtain ⟨c, rfl, hc⟩ := hc
    have hcp : isspace c = false ∧ c ≠ ch_quote ∧ (c ≠ ch_comma ∧ c ≠ ch_cr ∧ c ≠ ch_lf) := by
      rcases hc with rfl | rfl <;> decide
    have e : pre ++ [c] ++ d1 ++ [ch_period] ++ d2 ++ rest
        = pre ++ ([] ++ (c :: ((d1 ++ ch_period :: d2) ++ rest))) := by simp
    have hnt1 : ∀ x ∈ c :: (d1 ++ ch_period :: d2), x ≠ ch_comma ∧ x ≠ ch_cr ∧ x ≠ ch_lf := by
      intro x hx
      rcases List.mem_cons.1 hx with rfl | hx
      · exact hcp.2.2
      · exact hnt x hx
    have hsp1 : ∀ x ∈ c :: (d1 ++ ch_period :: d2), isspace x = false := by
      intro x hx
      rcases List.mem_cons.1 hx with rfl | hx
      · exact hcp.1
      · exact hsp x hx
    have h := (read_field_unquoted pre [] c (d1 ++ ch_period :: d2) rest (by simp) hcp.1
      hcp.2.1 hnt1 hrest).1
    rw [rtrim_no_space pre [] c (d1 ++ ch_period :: d2) rest hsp1, if_pos hc,
      init_state_sign c _ hc] at h
    have hm := mask_double d1 d2 (pre.length + ([] : List Nat).length + 1)
      (string_type ||| (double_type ||| integer_type)) h7 hd1 hd2
    rw [e, h, hm]
    simp only [List.length_nil, List.length_cons, List.length_append, Nat.add_zero]
    congr 2 <;> omega

/-! ## Fields whose exclusion mask fills up -/

theorem scan_body_excl_full (c : Nat) (st : ScanState)
    (h : st.excl_type_mask = double_type ||| integer_type) :
    (scan_body c st).excl_type_mask = double_type ||| integer_type := by
  obtain ⟨it, incl, excl, sp, ss⟩ := st
  simp only at h
  subst h
  unfold scan_body
  split_ifs <;> first | rfl | (simp only []; decide)

theorem scan_excl_full (l : List Nat) (st : ScanState)
    (h : st.excl_type_mask = double_type ||| integer_type) :
    (scan false l st).excl_type_mask = double_type ||| integer_type :=
  scan_unquoted_preserves (fun _ excl _ _ => excl = double_type ||| integer_type)
    (fun c st h => scan_body_excl_full c st h) l st h

theorem scan_body_period_inv (c : Nat) (st : ScanState)
    (h : excl_ok st.excl_type_mask ∧
      (st.seen_period = true → st.excl_type_mask = 4 ∨ st.excl_type_mask = 6)) :
    excl_ok (scan_body c st).excl_type_mask ∧
      ((scan_body c st).seen_period = true →
        (scan_body c st).excl_type_mask = 4 ∨ (scan_body c st).excl_type_mask = 6) := by
  obtain ⟨it, incl, excl, sp, ss⟩ := st
  obtain ⟨h1, h2⟩ := h
  simp only [excl_ok] at h1 h2 ⊢
  unfold scan_body
  cases sp <;> cases ss <;> rcases h1 with rfl | rfl | rfl | rfl <;>
    simp only [Bool.false_eq_true, if_false, if_true] <;> split_ifs <;>
    first | decide | (simp only []; decide) | (exfalso; revert h2; decide)

theorem scan_body_one_period (st : ScanState)
    (h : excl_ok st.excl_type_mask ∧
      (st.seen_period = true → st.excl_type_mask = 4 ∨ st.excl_type_mask = 6)) :
    (scan_body ch_period st).excl_type_mask = 6 ∨
      ((scan_body ch_period st).seen_period = true ∧
        (scan_body ch_period st).excl_type_mask = 4) := by
  obtain ⟨it, incl, excl, sp, ss⟩ := st
  obtain ⟨h1, h2⟩ := h
  have hnd : ¬(ch_0 ≤ ch_period ∧ ch_period ≤ ch_9) := by decide
  simp only [excl_ok] at h1 h2 ⊢
  unfold scan_body
  rw [if_neg hnd, if_pos rfl]
  cases sp <;> cases ss <;> rcases h1 with rfl | rfl | rfl | rfl <;>
    simp only [Bool.false_eq_true, if_false, if_true] <;>
    first | decide | (exfalso; revert h2; decide)

theorem scan_body_after_period (c : Nat) (st : ScanState)
    (h : st.excl_type_mask = 6 ∨ (st.seen_period = true ∧ st.excl_type_mask = 4)) :
    (scan_body c st).excl_type_mask = 6 ∨
      ((scan_body c st).seen_period = true ∧ (scan_body c st).excl_type_mask = 4) := by
  obtain ⟨it, incl, excl, sp, ss⟩ := st
  simp only at h ⊢
  unfold scan_body
  rcases h with rfl | ⟨rfl, rfl⟩
  · cases ss <;> cases sp <;> simp only [Bool.false_eq_true, if_false, if_true] <;>
      split_ifs <;> first | decide | (simp only []; decide)
  · cases ss <;> simp only [Bool.false_eq_true, if_false, if_true] <;> split_ifs <;>
      first | decide | (simp only []; decide)

theorem scan_body_second_period (st : ScanState)
    (h : st.excl_type_mask = 6 ∨ (st.seen_period = true ∧ st.excl_type_mask = 4)) :
    (scan_body ch_period st).excl_type_mask = double_type ||| integer_type := by
  obtain ⟨it, incl, excl, sp, ss⟩ := st
  have hnd : ¬(ch_0 ≤ ch_period ∧ ch_period ≤ ch_9) := by decide
  simp only at h ⊢
  unfold scan_body
  rw [if_neg hnd, if_pos rfl]
  rcases h with rfl | ⟨rfl, rfl⟩
  · cases ss <;> cases sp <;> simp only [Bool.false_eq_true, if_false, if_true] <;> decide
  · cases ss <;> simp only [Bool.false_eq_true, if_false, if_true] <;> decide

theorem two_periods_excl (A b c2 : List Nat) (st : ScanState)
    (hA : ∀ x ∈ A, x ≠ ch_comma ∧ x ≠ ch_cr ∧ x ≠ ch_lf)
    (hb : ∀ x ∈ b, x ≠ ch_comma ∧ x ≠ ch_cr ∧ x ≠ ch_lf)
    (h : excl_ok st.excl_type_mask ∧
      (st.seen_period = true → st.excl_type_mask = 4 ∨ st.excl_type_mask = 6)) :
    (scan false (A ++ ch_period :: (b ++ ch_period :: c2)) st).excl_type_mask
      = double_type ||| integer_type := by
  have hper : ch_period ≠ ch_comma ∧ ch_period ≠ ch_cr ∧ ch_period ≠ ch_lf := by decide
  rw [scan_unquoted_split A _ st hA, scan_unquoted_step ch_period _ _ hper,
    scan_unquoted_split b _ _ hb, scan_unquoted_step ch_period _ _ hper]
  apply scan_excl_full
  simp only []
  apply scan_body_second_period
  have h1 := scan_unquoted_preserves
    (fun _ excl sp _ => excl_ok excl ∧ (sp = true → excl = 4 ∨ excl = 6))
    (fun c st h => scan_body_period_inv c st h) A st h
  have h2 := scan_body_one_period _ h1
  exact scan_unquoted_preserves
    (fun _ excl sp _ => excl = 6 ∨ (sp = true ∧ excl = 4))
    (fun c st h => scan_body_after_period c st h) b _ h2

theorem init_state_inv (c begin : Nat) :
    (init_state false c begin).excl_type_mask = 0 ∧
      (init_state false c begin).seen_period = false ∧
      (init_state false c begin).seen_space = false := by
  unfold init_state
  split_ifs <;> exact ⟨rfl, rfl, rfl⟩

theorem resolve_excl_full (incl : Nat) (hi : incl_ok incl) :
    resolve incl (double_type ||| integer_type) = string_type := by
  simp only [incl_ok] at hi
  rcases hi with rfl | rfl | rfl | rfl <;> decide

theorem read_field_unquoted_string (pre lead : List Nat) (c : Nat) (tl rest : List Nat)
    (hlead : ∀ x ∈ lead, isspace x = true) (hc : isspace c = false) (hq : c ≠ ch_quote)
    (hfield : ∀ x ∈ c :: tl, x ≠ ch_comma ∧ x ≠ ch_cr ∧ x ≠ ch_lf)
    (hrest : at_field_end rest = true)
    (hex : (scan false (if c = ch_minus ∨ c = ch_plus then tl else c :: tl)
      (init_state false c (pre.length + lead.length))).excl_type_mask
        = double_type ||| integer_type) :
    ∃ r, read_field (pre ++ (lead ++ (c :: (tl ++ rest)))) pre.length = .ok r ∧
      r.mask = string_type ∧ r.first = pre.length + lead.length ∧ r.first < r.last := by
  have h := read_field_unquoted pre lead c tl rest hlead hc hq hfield hrest
  have h0 := init_masks false c (pre.length + lead.length)
  have hm := scan_masks false (if c = ch_minus ∨ c = ch_plus then tl else c :: tl) _ h0.1 h0.2
  refine ⟨_, h.1, ?_, rfl, h.2⟩
  show resolve _ _ = string_type
  rw [hex]
  exact resolve_excl_full _ hm.1

/-! ## Whitespace inside a field, then a digit -/

theorem scan_body_space (w : Nat) (st : ScanState) (hw : isspace w = true)
    (hnt : w ≠ ch_comma ∧ w ≠ ch_cr ∧ w ≠ ch_lf) :
    scan_body w st = { st with seen_space := true } := by
  have h1 : ¬(ch_0 ≤ w ∧ w ≤ ch_9) := by
    intro h
    rw [(digit_props w h).1] at hw
    cases hw
  have h2 : w ≠ ch_period := by
    intro h
    subst h
    revert hw
    decide
  unfold scan_body
  rw [if_neg h1, if_neg h2, if_pos ⟨hnt.2.1, hnt.2.2⟩, if_pos hw]

theorem scan_body_keeps_space (c : Nat) (st : ScanState) (h : st.seen_space = true) :
    (scan_body c st).seen_space = true := by
  unfold scan_body
  split_ifs <;> first | exact h | rfl

theorem scan_body_digit_after_space (d : Nat) (st : ScanState) (hd : ch_0 ≤ d ∧ d ≤ ch_9)
    (hs : st.seen_space = true) (he : excl_ok st.excl_type_mask) :
    (scan_body d st).excl_type_mask = double_type ||| integer_type := by
  obtain ⟨it, incl, excl, sp, ss⟩ := st
  simp only at hs he
  subst hs
  unfold scan_body
  rw [if_pos hd]
  simp only [if_true, excl_ok] at he ⊢
  rcases he with rfl | rfl | rfl | rfl <;> decide

theorem space_digit_excl (A B C : List Nat) (w d : Nat) (st : ScanState)
    (hA : ∀ x ∈ A, x ≠ ch_comma ∧ x ≠ ch_cr ∧ x ≠ ch_lf)
    (hB : ∀ x ∈ B, x ≠ ch_comma ∧ x ≠ ch_cr ∧ x ≠ ch_lf)
    (hw : isspace w = true) (hwnt : w ≠ ch_comma ∧ w ≠ ch_cr ∧ w ≠ ch_lf)
    (hd : ch_0 ≤ d ∧ d ≤ ch_9)
    (hi : incl_ok st.incl_type_mask) (he : excl_ok st.excl_type_mask) :
    (scan false (A ++ w :: (B ++ d :: C)) st).excl_type_mask
      = double_type ||| integer_type := by
  rw [scan_unquoted_split A _ st hA, scan_unquoted_step w _ _ hwnt,
    scan_unquoted_split B _ _ hB, scan_unquoted_step d _ _ (digit_props d hd).2.2.1]
  apply scan_excl_full
  simp only []
  have hA1 := scan_masks false A st hi he
  have hw1 := scan_body_masks w _ hA1.1 hA1.2
  have hsp : (scan_body w (scan false A st)).seen_space = true := by
    rw [scan_body_space w _ hw hwnt]
  have hB1 := scan_unquoted_preserves
    (fun incl excl _ ss => (incl_ok incl ∧ excl_ok excl) ∧ ss = true)
    (fun c st h => ⟨scan_body_masks c st h.1.1 h.1.2, scan_body_keeps_space c st h.2⟩) B
    ⟨(scan false A st).it + 1, (scan_body w (scan false A st)).incl_type_mask,
      (scan_body w (scan false A st)).excl_type_mask,
      (scan_body w (scan false A st)).seen_period,
      (scan_body w (scan false A st)).seen_space⟩ ⟨hw1, hsp⟩
  exact scan_body_digit_after_space d _ hd hB1.2 hB1.1.2

/-- Claim C4: an unquoted field that contains two or more periods resolves to
`string`; the first period (no whitespace before it) adds `double` to the
inclusion mask and `integer` to the exclusion mask, and a later period adds
`double` to the exclusion mask. -/
theorem read_field_two_periods_string (pre lead a b c2 rest : List Nat)
    (hlead : ∀ x ∈ lead, isspace x = true)
    (hhead : ∀ x, a.head? = some x → isspace x = false ∧ x ≠ ch_quote)
    (ha : ∀ x ∈ a, x ≠ ch_comma ∧ x ≠ ch_cr ∧ x ≠ ch_lf)
    (hb : ∀ x ∈ b, x ≠ ch_comma ∧ x ≠ ch_cr ∧ x ≠ ch_lf)
    (hc2 : ∀ x ∈ c2, x ≠ ch_comma ∧ x ≠ ch_cr ∧ x ≠ ch_lf)
    (hrest : at_field_end rest = true) :
    (∃ r, read_field (pre ++ lead ++ a ++ [ch_period] ++ b ++ [ch_period] ++ c2 ++ rest)
        pre.length = .ok r ∧ r.mask = string_type) ∧
      (∀ st : ScanState, st.seen_space = false → st.seen_period = false →
        scan_body ch_period st
          = { st with
              incl_type_mask := st.incl_type_mask ||| double_type
              excl_type_mask := st.excl_type_mask ||| integer_type
              seen_period := true }) ∧
      (∀ st : ScanState, st.seen_space = false → st.seen_period = true →
        scan_body ch_period st
          = { st with excl_type_mask := st.excl_type_mask ||| double_type }) := by
  have hper : isspace ch_period = false ∧ ch_period ≠ ch_quote ∧
      (ch_period ≠ ch_comma ∧ ch_period ≠ ch_cr ∧ ch_period ≠ ch_lf) ∧
      ¬(ch_period = ch_minus ∨ ch_period = ch_plus) := by decide
  have htail : ∀ x ∈ b ++ ch_period :: c2, x ≠ ch_comma ∧ x ≠ ch_cr ∧ x ≠ ch_lf := by
    intro x hx
    rcases List.mem_append.1 hx with hx | hx
    · exact hb x hx
    · rcases List.mem_cons.1 hx with rfl | hx
      · exact hper.2.2.1
      · exact hc2 x hx
  have hinv : ∀ c n, excl_ok (init_state false c n).excl_type_mask ∧
      ((init_state false c n).seen_period = true →
        (init_state false c n).excl_type_mask = 4 ∨ (init_state false c n).excl_type_mask = 6) := by
    intro c n
    have h := init_state_inv c n
    rw [h.1, h.2.1]
    exact ⟨Or.inl rfl, fun h => by cases h⟩
  refine ⟨?_, ?_, ?_⟩
  · cases a with
    | nil =>
      have e : pre ++ lead ++ [] ++ [ch_period] ++ b ++ [ch_period] ++ c2 ++ rest
          = pre ++ (lead ++ (ch_period :: ((b ++ ch_period :: c2) ++ rest))) := by simp
      have hf : ∀ x ∈ ch_period :: (b ++ ch_period :: c2),
          x ≠ ch_comma ∧ x ≠ ch_cr ∧ x ≠ ch_lf := by
        intro x hx
        rcases List.mem_cons.1 hx with rfl | hx
        · exact hper.2.2.1
        · exact htail x hx
      have hex : (scan false (if ch_period = ch_minus ∨ ch_period = ch_plus
          then b ++ ch_period :: c2 else ch_period :: (b ++ ch_period :: c2))
          (init_state false ch_period (pre.length + lead.length))).excl_type_mask
            = double_type ||| integer_type := by
        rw [if_neg hper.2.2.2]
        exact two_periods_excl [] b c2 _ (by simp) hb (hinv _ _)
      obtain ⟨r, hr, hm, _⟩ := read_field_unquoted_string pre lead ch_period
        (b ++ ch_period :: c2) rest hlead hper.1 hper.2.1 hf hrest hex
      exact ⟨r, by rw [e]; exact hr, hm⟩
    | cons x a1 =>
      have hx := hhead x rfl
      have ha1 : ∀ y ∈ a1, y ≠ ch_comma ∧ y ≠ ch_cr ∧ y ≠ ch_lf :=
        fun y hy => ha y (by simp [hy])
      have e : pre ++ lead ++ x :: a1 ++ [ch_period] ++ b ++ [ch_period] ++ c2 ++ rest
          = pre ++ (lead ++ (x :: ((a1 ++ ch_period :: (b ++ ch_period :: c2)) ++ rest))) := by
        simp
      have hf : ∀ y ∈ x :: (a1 ++ ch_period :: (b ++ ch_period :: c2)),
          y ≠ ch_comma ∧ y ≠ ch_cr ∧ y ≠ ch_lf := by
        intro y hy
        rcases List.mem_cons.1 hy with rfl | hy
        · exact ha _ (by simp)
        · rcases List.mem_append.1 hy with hy | hy
          · exact ha1 y hy
          · rcases List.mem_cons.1 hy with rfl | hy
            · exact hper.2.2.1
            · exact htail y hy
      have hex : (scan false (if x = ch_minus ∨ x = ch_plus
          then a1 ++ ch_period :: (b ++ ch_period :: c2)
          else x :: (a1 ++ ch_period :: (b ++ ch_period :: c2)))
          (init_state false x (pre.length + lead.length))).excl_type_mask
            = double_type ||| integer_type := by
        split_ifs
        · exact two_periods_excl a1 b c2 _ ha1 hb (hinv _ _)
        · exact two_periods_excl (x :: a1) b c2 _ ha hb (hinv _ _)
      obtain ⟨r, hr, hm, _⟩ := read_field_unquoted_string pre lead x
        (a1 ++ ch_period :: (b ++ ch_period :: c2)) rest hlead hx.1 hx.2 hf hrest hex
      exact ⟨r, by rw [e]; exact hr, hm⟩
  · intro st hs hp
    exact scan_body_first_period st hs hp
  · intro st hs hp
    obtain ⟨it, incl, excl, sp, ss⟩ := st
    simp only at hs hp
    subst hs hp
    rfl

/-- Claim C5: an unquoted field in which an ASCII digit `d` occurs after a
whitespace byte `w` embedded in the field (the field starts with the
non-whitespace byte `x`) resolves to `string`. -/
theorem read_field_digit_after_space_string (pre lead : List Nat) (x : Nat) (a : List Nat) (w : Nat) (b : List Nat)
    (d : Nat) (c2 rest : List Nat)
    (hlead : ∀ y ∈ lead, isspace y = true)
    (hx : isspace x = false) (hxq : x ≠ ch_quote)
    (hw : isspace w = true) (hd : ch_0 ≤ d ∧ d ≤ ch_9)
    (hnt : ∀ y ∈ x :: (a ++ w :: (b ++ d :: c2)), y ≠ ch_comma ∧ y ≠ ch_cr ∧ y ≠ ch_lf)
    (hrest : at_field_end rest = true) :
    ∃ r, read_field (pre ++ lead ++ [x] ++ a ++ [w] ++ b ++ [d] ++ c2 ++ rest) pre.length
        = .ok r ∧ r.mask = string_type := by
  have e : pre ++ lead ++ [x] ++ a ++ [w] ++ b ++ [d] ++ c2 ++ rest
      = pre ++ (lead ++ (x :: ((a ++ w :: (b ++ d :: c2)) ++ rest))) := by simp
  have hxa : ∀ y ∈ x :: a, y ≠ ch_comma ∧ y ≠ ch_cr ∧ y ≠ ch_lf := by
    intro y hy
    rcases List.mem_cons.1 hy with rfl | hy
    · exact hnt _ (by simp)
    · exact hnt y (by simp [hy])
  have ha : ∀ y ∈ a, y ≠ ch_comma ∧ y ≠ ch_cr ∧ y ≠ ch_lf :=
    fun y hy => hxa y (by simp [hy])
  have hb : ∀ y ∈ b, y ≠ ch_comma ∧ y ≠ ch_cr ∧ y ≠ ch_lf :=
    fun y hy => hnt y (by simp [hy])
  have hwnt : w ≠ ch_comma ∧ w ≠ ch_cr ∧ w ≠ ch_lf := hnt w (by simp)
  have h0 := init_masks false x (pre.length + lead.length)
  have hex : (scan false (if x = ch_minus ∨ x = ch_plus
      then a ++ w :: (b ++ d :: c2) else x :: (a ++ w :: (b ++ d :: c2)))
      (init_state false x (pre.length + lead.length))).excl_type_mask
        = double_type ||| integer_type := by
    split_ifs
    · exact space_digit_excl a b c2 w d _ ha hb hw hwnt hd h0.1 h0.2
    · exact space_digit_excl (x :: a) b c2 w d _ hxa hb hw hwnt hd h0.1 h0.2
  obtain ⟨r, hr, hm, _⟩ := read_field_unquoted_string pre lead x
    (a ++ w :: (b ++ d :: c2)) rest hlead hx hxq hnt hrest hex
  exact ⟨r, by rw [e]; exact hr, hm⟩

/-! ## Quoted fields -/

theorem scan_quoted_escaped (text more : List Nat) (st : ScanState) :
    scan true (rfc4180_escape text ++ more) st
      = scan true more
          { it := st.it + (rfc4180_escape text).length
            incl_type_mask := st.incl_type_mask
            excl_type_mask := st.excl_type_mask
            seen_period := st.seen_period
            seen_space := st.seen_space } := by
  induction text generalizing st with
  | nil => rfl
  | cons c text ih =>
    by_cases hc : c = ch_quote
    · subst hc
      simp only [rfc4180_escape, if_true, List.cons_append, List.length_cons]
      rw [scan_quoted_pair, ih]
      simp only [Nat.add_assoc, Nat.add_comm 1]
    · simp only [rfc4180_escape, if_neg hc, List.cons_append, List.length_cons]
      rw [scan_quoted_step c _ st hc, ih]
      simp only [Nat.add_assoc, Nat.add_comm 1]

theorem scan_quoted_close (rest : List Nat) (st : ScanState)
    (hrest : rest.head? ≠ some ch_quote) : scan true (ch_quote :: rest) st = st := by
  cases rest with
  | nil => exact scan_quoted_last st
  | cons c1 rest1 =>
    have h1 : c1 ≠ ch_quote := by
      intro h
      subst h
      exact hrest rfl
    exact scan_quoted_stop c1 rest1 st h1

theorem rfc4180_escape_plain (content : List Nat) (h : ∀ x ∈ content, x ≠ ch_quote) :
    rfc4180_escape content = content := by
  induction content with
  | nil => rfl
  | cons c content ih =>
    have hc : c ≠ ch_quote := h c (by simp)
    simp only [rfc4180_escape, if_neg hc]
    rw [ih (fun x hx => h x (by simp [hx]))]

theorem rfc4180_escape_ne_nil (text : List Nat) (h : text ≠ []) : rfc4180_escape text ≠ [] := by
  cases text with
  | nil => exact absurd rfl h
  | cons c text =>
    simp only [rfc4180_escape]
    split_ifs <;> simp

theorem read_field_quoted (pre lead raw rest : List Nat)
    (hlead : ∀ x ∈ lead, isspace x = true) (hne : raw ≠ [])
    (hscan : ∀ st : ScanState, scan true (raw ++ ch_quote :: rest) st
      = { it := st.it + raw.length
          incl_type_mask := st.incl_type_mask
          excl_type_mask := st.excl_type_mask
          seen_period := st.seen_period
          seen_space := st.seen_space }) :
    read_field (pre ++ (lead ++ (ch_quote :: (raw ++ ch_quote :: rest)))) pre.length
      = .ok { first := pre.length + lead.length + 1
              last := pre.length + lead.length + 1 + raw.length
              mask := string_type
              cursor := pre.length + lead.length + 1 + raw.length + 1 } := by
  have hqs : isspace ch_quote = false := by decide
  have hget : (pre ++ (lead ++ (ch_quote :: (raw ++ ch_quote :: rest))))[pre.length + lead.length]?
      = some ch_quote := by
    have h := getElem?_mid (pre ++ lead) ch_quote (raw ++ ch_quote :: rest)
    have e1 : (pre ++ lead) ++ (ch_quote :: (raw ++ ch_quote :: rest))
        = pre ++ (lead ++ (ch_quote :: (raw ++ ch_quote :: rest))) := by simp
    have e2 : (pre ++ lead).length = pre.length + lead.length := by simp
    rw [e1, e2] at h
    exact h
  have hget2 : (pre ++ (lead ++ (ch_quote :: (raw ++ ch_quote :: rest))))[
      pre.length + lead.length + 1 + raw.length]? = some ch_quote := by
    have h := getElem?_mid (pre ++ (lead ++ (ch_quote :: raw))) ch_quote rest
    have e1 : (pre ++ (lead ++ (ch_quote :: raw))) ++ (ch_quote :: rest)
        = pre ++ (lead ++ (ch_quote :: (raw ++ ch_quote :: rest))) := by simp
    have e2 : (pre ++ (lead ++ (ch_quote :: raw))).length
        = pre.length + lead.length + 1 + raw.length := by
      simp only [List.length_append, List.length_cons]
      omega
    rw [e1, e2] at h
    exact h
  have hdrop : List.drop (pre.length + lead.length + 1)
      (pre ++ (lead ++ (ch_quote :: (raw ++ ch_quote :: rest)))) = raw ++ ch_quote :: rest := by
    have h := List.drop_left (pre ++ (lead ++ [ch_quote])) (raw ++ ch_quote :: rest)
    have e1 : (pre ++ (lead ++ [ch_quote])) ++ (raw ++ ch_quote :: rest)
        = pre ++ (lead ++ (ch_quote :: (raw ++ ch_quote :: rest))) := by simp
    have e2 : (pre ++ (lead ++ [ch_quote])).length = pre.length + lead.length + 1 := by
      simp [Nat.add_assoc]
    rw [e1, e2] at h
    exact h
  have hlen : pre.length ≠ (pre ++ (lead ++ (ch_quote :: (raw ++ ch_quote :: rest)))).length := by
    simp only [List.length_append, List.length_cons]
    omega
  have hrl : 0 < raw.length := List.length_pos.2 hne
  have hinit : init_state true ch_quote (pre.length + lead.length + 1)
      = { it := pre.length + lead.length + 1, incl_type_mask := string_type
          excl_type_mask := 0, seen_period := false, seen_space := false } := rfl
  have hbc : ¬bit_count (resolve string_type 0) ≠ 1 := by decide
  have hres : resolve string_type 0 = string_type := by decide
  unfold read_field
  rw [if_neg hlen]
  simp only [ltrim_skip pre lead ch_quote (raw ++ ch_quote :: rest) hlead hqs, hget,
    beq_self_eq_true, if_true, hinit, hdrop, hscan]
  unfold finish_field
  simp only [Bool.not_true, Bool.false_eq_true, if_false, if_true, hget2]
  rw [if_neg (by omega), if_neg hbc, if_neg (by simp), hres]

theorem drop_quoted (pre lead raw rest : List Nat) :
    List.drop (pre.length + lead.length + 1)
      (pre ++ (lead ++ (ch_quote :: (raw ++ ch_quote :: rest)))) = raw ++ ch_quote :: rest := by
  have h := List.drop_left (pre ++ (lead ++ [ch_quote])) (raw ++ ch_quote :: rest)
  have e1 : (pre ++ (lead ++ [ch_quote])) ++ (raw ++ ch_quote :: rest)
      = pre ++ (lead ++ (ch_quote :: (raw ++ ch_quote :: rest))) := by simp
  have e2 : (pre ++ (lead ++ [ch_quote])).length = pre.length + lead.length + 1 := by
    simp [Nat.add_assoc]
  rw [e1, e2] at h
  exact h

theorem span_bytes_quoted (pre lead raw rest : List Nat) (m c : Nat) :
    span_bytes (pre ++ (lead ++ (ch_quote :: (raw ++ ch_quote :: rest))))
      { first := pre.length + lead.length + 1
        last := pre.length + lead.length + 1 + raw.length, mask := m, cursor := c } = raw := by
  unfold span_bytes
  simp only []
  rw [drop_quoted, Nat.add_sub_cancel_left, List.take_left]

theorem rtrim_self (s : List Nat) (begin : Nat) : rtrim s begin begin = begin := by
  cases begin with
  | zero => rfl
  | succ n => simp [rtrim]

/-! ## The claims -/

/-- Claim C1: whenever `read_field` returns, the type mask it returns is one
of `string` (1), `double` (2), `integer` (4), `null` (8), and `bit_count`
of it is 1. -/
theorem read_field_mask_one_bit (s : List Nat) (begin : Nat) (r : FieldResult)
    (h : read_field s begin = .ok r) :
    (r.mask = string_type ∨ r.mask = double_type ∨ r.mask = integer_type ∨
      r.mask = null_type) ∧ bit_count r.mask = 1 := by
  unfold read_field at h
  split_ifs at h
  simp only at h
  split at h
  · cases h
  · rename_i c hc
    have h0 := init_masks (c == ch_quote) c
      (if (c == ch_quote) = true then ltrim s begin + 1 else ltrim s begin)
    exact finish_field_masks _ _ _ _ r (scan_masks _ _ _ h0.1 h0.2).1
      (scan_masks _ _ _ h0.1 h0.2).2 h

/-- Claim C6: a quoted field whose content is non-empty and has no quote
character, closed by a quote that no quote follows, is returned as exactly
the bytes between the two quotes, whatever they are (commas, CR, LF, digits,
whitespace), with the type `string`. -/
theorem read_field_quoted_keeps_bytes (pre lead content rest : List Nat)
    (hlead : ∀ x ∈ lead, isspace x = true) (hne : content ≠ [])
    (hnq : ∀ x ∈ content, x ≠ ch_quote) (hrest : rest.head? ≠ some ch_quote) :
    read_field (pre ++ lead ++ [ch_quote] ++ content ++ [ch_quote] ++ rest) pre.length
        = .ok { first := pre.length + lead.length + 1
                last := pre.length + lead.length + 1 + content.length
                mask := string_type
                cursor := pre.length + lead.length + 1 + content.length + 1 } ∧
      span_bytes (pre ++ lead ++ [ch_quote] ++ content ++ [ch_quote] ++ rest)
        { first := pre.length + lead.length + 1
          last := pre.length + lead.length + 1 + content.length
          mask := string_type
          cursor := pre.length + lead.length + 1 + content.length + 1 } = content := by
  have e : pre ++ lead ++ [ch_quote] ++ content ++ [ch_quote] ++ rest
      = pre ++ (lead ++ (ch_quote :: (content ++ ch_quote :: rest))) := by simp
  have hscan : ∀ st : ScanState, scan true (content ++ ch_quote :: rest) st
      = { it := st.it + content.length
          incl_type_mask := st.incl_type_mask
          excl_type_mask := st.excl_type_mask
          seen_period := st.seen_period
          seen_space := st.seen_space } := by
    intro st
    have h := scan_quoted_escaped content (ch_quote :: rest) st
    rw [rfc4180_escape_plain content hnq] at h
    rw [h, scan_quoted_close rest _ hrest]
  rw [e]
  exact ⟨read_field_quoted pre lead content rest hlead hne hscan,
    span_bytes_quoted pre lead content rest _ _⟩

/-- Claim C7, as the code has it: a quoted field whose content is the escaped
form of a non-empty text (each quote of the text doubled) resolves to
`string`, and the span returned is the raw bytes between the outer quotes,
every doubled quote still two bytes. -/
theorem read_field_escaped_span_raw (pre lead text rest : List Nat)
    (hlead : ∀ x ∈ lead, isspace x = true) (hne : text ≠ [])
    (hrest : rest.head? ≠ some ch_quote) :
    ∃ r, read_field (pre ++ lead ++ [ch_quote] ++ rfc4180_escape text ++ [ch_quote] ++ rest)
          pre.length = .ok r ∧
      r.mask = string_type ∧
      span_bytes (pre ++ lead ++ [ch_quote] ++ rfc4180_escape text ++ [ch_quote] ++ rest) r
        = rfc4180_escape text := by
  have e : pre ++ lead ++ [ch_quote] ++ rfc4180_escape text ++ [ch_quote] ++ rest
      = pre ++ (lead ++ (ch_quote :: (rfc4180_escape text ++ ch_quote :: rest))) := by simp
  have hscan : ∀ st : ScanState, scan true (rfc4180_escape text ++ ch_quote :: rest) st
      = { it := st.it + (rfc4180_escape text).length
          incl_type_mask := st.incl_type_mask
          excl_type_mask := st.excl_type_mask
          seen_period := st.seen_period
          seen_space := st.seen_space } := by
    intro st
    rw [scan_quoted_escaped text (ch_quote :: rest) st, scan_quoted_close rest _ hrest]
  rw [e]
  exact ⟨_, read_field_quoted pre lead (rfc4180_escape text) rest hlead
    (rfc4180_escape_ne_nil text hne) hscan, rfl, span_bytes_quoted pre lead _ rest _ _⟩

/-- Claim C7 as stated fails: for the quoted field `"say ""hi"""` the span
returned is the ten raw bytes `say ""hi""`, not the eight bytes `say "hi"`. -/
theorem read_field_escaped_quotes_not_unescaped :
    read_field (ch_quote :: (bytes "say " ++ [ch_quote, ch_quote] ++ bytes "hi"
        ++ [ch_quote, ch_quote, ch_quote])) 0
        = .ok { first := 1, last := 11, mask := string_type, cursor := 12 } ∧
      span_bytes (ch_quote :: (bytes "say " ++ [ch_quote, ch_quote] ++ bytes "hi"
        ++ [ch_quote, ch_quote, ch_quote]))
        { first := 1, last := 11, mask := string_type, cursor := 12 }
        = bytes "say " ++ [ch_quote, ch_quote] ++ bytes "hi" ++ [ch_quote, ch_quote] ∧
      span_bytes (ch_quote :: (bytes "say " ++ [ch_quote, ch_quote] ++ bytes "hi"
        ++ [ch_quote, ch_quote, ch_quote]))
        { first := 1, last := 11, mask := string_type, cursor := 12 }
        ≠ bytes "say " ++ [ch_quote] ++ bytes "hi" ++ [ch_quote] := by
  refine ⟨by decide!, by decide!, by decide!⟩

/-- Claim C8: in quoted mode a quote followed by a quote does not end the
loop, both bytes are consumed and the scan goes on; and on a content whose
quotes all come in such pairs, followed by a quote that no quote follows,
the loop stops with `it` on that quote and the masks untouched. -/
theorem scan_quoted_ends_at_unpaired_quote (text rest : List Nat) (st : ScanState)
    (hrest : rest.head? ≠ some ch_quote) :
    (∀ (more : List Nat) (st1 : ScanState),
        scan true (ch_quote :: ch_quote :: more) st1
          = scan true more { st1 with it := st1.it + 2 }) ∧
      scan true (rfc4180_escape text ++ ch_quote :: rest) st
        = { st with it := st.it + (rfc4180_escape text).length } ∧
      (rfc4180_escape text ++ ch_quote :: rest)[(rfc4180_escape text).length]?
        = some ch_quote := by
  refine ⟨fun more st1 => scan_quoted_pair more st1, ?_, ?_⟩
  · rw [scan_quoted_escaped text (ch_quote :: rest) st, scan_quoted_close rest _ hrest]
  · exact getElem?_mid _ _ _

/-- The empty field before a comma, for an `ltrim` that passes every `isspace`
byte: when the cursor is at a comma, or at whitespace that a comma follows,
the span returned is empty, at that comma, with the type `null`, and the
cursor is left on the comma. -/
theorem read_field_empty_before_comma_null (pre lead rest : List Nat)
    (hlead : ∀ x ∈ lead, isspace x = true) :
    read_field (pre ++ lead ++ [ch_comma] ++ rest) pre.length
      = .ok { first := pre.length + lead.length, last := pre.length + lead.length
              mask := null_type, cursor := pre.length + lead.length } := by
  have hcs : isspace ch_comma = false ∧ ¬(ch_comma = ch_minus ∨ ch_comma = ch_plus) ∧
      (ch_comma == ch_quote) = false ∧ ¬(ch_comma ≠ ch_comma ∧ ch_comma ≠ ch_cr ∧ ch_comma ≠ ch_lf) := by
    decide
  have e : pre ++ lead ++ [ch_comma] ++ rest = pre ++ (lead ++ ch_comma :: rest) := by simp
  have hget : (pre ++ (lead ++ ch_comma :: rest))[pre.length + lead.length]? = some ch_comma := by
    have h := getElem?_mid (pre ++ lead) ch_comma rest
    have e1 : (pre ++ lead) ++ ch_comma :: rest = pre ++ (lead ++ ch_comma :: rest) := by simp
    have e2 : (pre ++ lead).length = pre.length + lead.length := by simp
    rw [e1, e2] at h
    exact h
  have hdrop : List.drop (pre.length + lead.length) (pre ++ (lead ++ ch_comma :: rest))
      = ch_comma :: rest := by
    have h := List.drop_left (pre ++ lead) (ch_comma :: rest)
    have e1 : (pre ++ lead) ++ ch_comma :: rest = pre ++ (lead ++ ch_comma :: rest) := by simp
    have e2 : (pre ++ lead).length = pre.length + lead.length := by simp
    rw [e1, e2] at h
    exact h
  have hlen : pre.length ≠ (pre ++ (lead ++ ch_comma :: rest)).length := by
    simp only [List.length_append, List.length_cons]
    omega
  rw [e]
  unfold read_field
  rw [if_neg hlen]
  simp only [ltrim_skip pre lead ch_comma rest hlead hcs.1, hget, hcs.2.2.1, Bool.false_eq_true,
    if_false, init_state_plain ch_comma _ hcs.2.1, hdrop,
    scan_unquoted_stop ch_comma rest _ hcs.2.2.2]
  unfold finish_field
  simp only [Bool.not_false, if_true, rtrim_self]

/-- The class of bytes `ltrim` passes matters at the end of a record: for an
`ltrim` that passes every `isspace` byte, LF among them, with the cursor at the
LF that ends the record `a,` the call returns the span `b` of the next record
with the type `string`. -/
theorem read_field_at_lf_not_null :
    (bytes "a," ++ [ch_lf] ++ bytes "b")[2]? = some ch_lf ∧
      read_field (bytes "a," ++ [ch_lf] ++ bytes "b") 2
        = .ok { first := 3, last := 4, mask := string_type, cursor := 4 } := by
  decide

/-- Claim C10, as the code has it: after a non-empty unquoted field that a
comma follows, the cursor is at the end of the returned span, that is after the
last non-whitespace byte of the field: `trail.length` bytes before the
comma, and on the comma when no whitespace precedes it.  The comma is not
consumed. -/
theorem read_field_cursor_at_span_end (pre lead : List Nat) (c : Nat)
    (mid trail rest : List Nat)
    (hlead : ∀ x ∈ lead, isspace x = true) (hc : isspace c = false) (hq : c ≠ ch_quote)
    (hlast : ∀ z, (c :: mid).getLast? = some z → isspace z = false)
    (htrail : ∀ x ∈ trail, isspace x = true)
    (hnt : ∀ x ∈ c :: (mid ++ trail), x ≠ ch_comma ∧ x ≠ ch_cr ∧ x ≠ ch_lf) :
    ∃ r, read_field (pre ++ lead ++ c :: mid ++ trail ++ [ch_comma] ++ rest) pre.length = .ok r ∧
      r.cursor = r.last ∧
      r.cursor = pre.length + lead.length + (mid.length + 1) ∧
      (pre ++ lead ++ c :: mid ++ trail ++ [ch_comma] ++ rest)[r.cursor + trail.length]?
        = some ch_comma := by
  have e : pre ++ lead ++ c :: mid ++ trail ++ [ch_comma] ++ rest
      = pre ++ (lead ++ (c :: ((mid ++ trail) ++ ch_comma :: rest))) := by simp
  have h := (read_field_unquoted pre lead c (mid ++ trail) (ch_comma :: rest) hlead hc hq hnt
    (by simp [at_field_end])).1
  rcases List.eq_nil_or_concat (c :: mid) with h0 | ⟨init, z, h0⟩
  · cases h0
  · rw [List.concat_eq_append] at h0
    have hz : isspace z = false := hlast z (by rw [h0]; simp)
    have hl : mid.length = init.length := by
      have := congrArg List.length h0
      simp only [List.length_cons, List.length_append, List.length_nil] at this
      omega
    have hs : pre ++ (lead ++ (c :: ((mid ++ trail) ++ ch_comma :: rest)))
        = (pre ++ (lead ++ init)) ++ z :: (trail ++ ch_comma :: rest) := by
      have : c :: ((mid ++ trail) ++ ch_comma :: rest)
          = (c :: mid) ++ (trail ++ ch_comma :: rest) := by simp
      rw [this, h0]
      simp
    have hr := rtrim_trail _ (pre.length + lead.length) (pre ++ (lead ++ init)) z trail
      (ch_comma :: rest) hs hz htrail (by simp only [List.length_append]; omega)
    have e2 : (pre ++ (lead ++ init)).length + 1 + trail.length
        = pre.length + lead.length + ((mid ++ trail).length + 1) := by
      simp only [List.length_append]
      omega
    have e3 : (pre ++ (lead ++ init)).length + 1 = pre.length + lead.length + (mid.length + 1) := by
      simp only [List.length_append]
      omega
    rw [e2, e3] at hr
    rw [hr] at h
    refine ⟨_, by rw [e]; exact h, rfl, rfl, ?_⟩
    have hg := getElem?_mid (pre ++ (lead ++ (c :: (mid ++ trail)))) ch_comma rest
    have e4 : (pre ++ (lead ++ (c :: (mid ++ trail)))) ++ ch_comma :: rest
        = pre ++ lead ++ c :: mid ++ trail ++ [ch_comma] ++ rest := by simp
    have e5 : (pre ++ (lead ++ (c :: (mid ++ trail)))).length
        = pre.length + lead.length + (mid.length + 1) + trail.length := by
      simp only [List.length_append, List.length_cons]
      omega
    rw [e4, e5] at hg
    exact hg

/-- Claim C10 as stated fails: on `ab,cd` the call returns with the cursor at
index 2, on the comma, and not at index 3 where the next field starts. -/
theorem read_field_cursor_on_comma :
    read_field (bytes "ab,cd") 0
        = .ok { first := 0, last := 2, mask := string_type, cursor := 2 } ∧
      (bytes "ab,cd")[2]? = some ch_comma ∧
      ¬∃ r, read_field (bytes "ab,cd") 0 = .ok r ∧ r.cursor = 3 := by
  refine ⟨by decide, by decide, ?_⟩
  rintro ⟨r, hr, hc⟩
  have h : read_field (bytes "ab,cd") 0
      = .ok { first := 0, last := 2, mask := string_type, cursor := 2 } := by decide
  rw [h] at hr
  cases hr
  cases hc

/-! ## The claims at concrete buffers -/

/-- Claim C1 on the buffer `a,123` with the cursor at index 2. -/
theorem read_field_mask_one_bit_witness :
    read_field (bytes "a,123") 2
        = .ok { first := 2, last := 5, mask := integer_type, cursor := 5 } ∧
      ((integer_type = string_type ∨ integer_type = double_type ∨
        integer_type = integer_type ∨ integer_type = null_type) ∧
        bit_count integer_type = 1) :=
  ⟨by decide, read_field_mask_one_bit (bytes "a,123") 2
    { first := 2, last := 5, mask := integer_type, cursor := 5 } (by decide)⟩

/-- Claim C2 on the buffer `a,-123,x` with the cursor at index 2. -/
theorem read_field_signed_digits_integer_witness :
    read_field (bytes "a,-123,x") 2
      = .ok { first := 2, last := 6, mask := integer_type, cursor := 6 } :=
  read_field_signed_digits_integer (bytes "a,") [ch_minus] (bytes "123") (bytes ",x")
    (by decide) (by decide) (by decide) (by decide)

/-- Claim C3 on the buffer `a,+123.45` with the cursor at index 2. -/
theorem read_field_one_period_double_witness :
    read_field (bytes "a,+123.45") 2
      = .ok { first := 2, last := 9, mask := double_type, cursor := 9 } :=
  read_field_one_period_double (bytes "a,") [ch_plus] (bytes "123") (bytes "45") []
    (by decide) (by decide) (by decide) (by decide) (by decide)

/-- Claim C4 on the buffer `a, 12.3.4,z` with the cursor at index 2. -/
theorem read_field_two_periods_string_witness :
    ∃ r, read_field (bytes "a, 12.3.4,z") 2 = .ok r ∧ r.mask = string_type :=
  (read_field_two_periods_string (bytes "a,") [ch_space] (bytes "12") (bytes "3") (bytes "4")
    (bytes ",z") (by decide) (by decide) (by decide) (by decide) (by decide) (by decide)).1

/-- Claim C5 on the buffer `12 34` with the cursor at index 0. -/
theorem read_field_digit_after_space_string_witness :
    ∃ r, read_field (bytes "12 34") 0 = .ok r ∧ r.mask = string_type :=
  read_field_digit_after_space_string [] [] 49 (bytes "2") ch_space [] 51 (bytes "4") []
    (by decide) (by decide) (by decide) (by decide) (by decide) (by decide) (by decide)

/-- Claim C6 on the buffer `a,"12,34",z` with the cursor at index 2. -/
theorem read_field_quoted_keeps_bytes_witness :
    read_field (bytes "a," ++ [ch_quote] ++ bytes "12,34" ++ [ch_quote] ++ bytes ",z") 2
        = .ok { first := 3, last := 8, mask := string_type, cursor := 9 } ∧
      span_bytes (bytes "a," ++ [ch_quote] ++ bytes "12,34" ++ [ch_quote] ++ bytes ",z")
        { first := 3, last := 8, mask := string_type, cursor := 9 } = bytes "12,34" :=
  read_field_quoted_keeps_bytes (bytes "a,") [] (bytes "12,34") (bytes ",z")
    (by decide) (by decide) (by decide) (by decide)

/-- Claim C7, as the code has it, on the quoted field of the text `say "hi"`. -/
theorem read_field_escaped_span_raw_witness :
    ∃ r, read_field ([] ++ [] ++ [ch_quote]
            ++ rfc4180_escape (bytes "say " ++ [ch_quote] ++ bytes "hi" ++ [ch_quote])
            ++ [ch_quote] ++ []) ([] : List Nat).length = .ok r ∧
      r.mask = string_type ∧
      span_bytes ([] ++ [] ++ [ch_quote]
            ++ rfc4180_escape (bytes "say " ++ [ch_quote] ++ bytes "hi" ++ [ch_quote])
            ++ [ch_quote] ++ []) r
        = rfc4180_escape (bytes "say " ++ [ch_quote] ++ bytes "hi" ++ [ch_quote]) :=
  read_field_escaped_span_raw [] [] (bytes "say " ++ [ch_quote] ++ bytes "hi" ++ [ch_quote]) []
    (by decide) (by decide) (by decide)

/-- Claim C8 on the content `a""` closed by a quote that a comma follows. -/
theorem scan_quoted_ends_at_unpaired_quote_witness :
    scan true (rfc4180_escape (bytes "a" ++ [ch_quote]) ++ ch_quote :: bytes ",x")
        { it := 1, incl_type_mask := string_type, excl_type_mask := 0
          seen_period := false, seen_space := false }
      = { it := 1 + (rfc4180_escape (bytes "a" ++ [ch_quote])).length
          incl_type_mask := string_type, excl_type_mask := 0
          seen_period := false, seen_space := false } :=
  (scan_quoted_ends_at_unpaired_quote (bytes "a" ++ [ch_quote]) (bytes ",x")
    { it := 1, incl_type_mask := string_type, excl_type_mask := 0
      seen_period := false, seen_space := false } (by decide)).2.1

/-- The empty field before a comma on the buffer `a,  ,b` with the cursor at
index 2. -/
theorem read_field_empty_before_comma_null_witness :
    read_field (bytes "a,  ,b") 2
      = .ok { first := 4, last := 4, mask := null_type, cursor := 4 } :=
  read_field_empty_before_comma_null (bytes "a,") [ch_space, ch_space] (bytes "b") (by decide)

/-- Claim C10, as the code has it, on the buffer `ab ,cd` with the cursor at
index 0. -/
theorem read_field_cursor_at_span_end_witness :
    ∃ r, read_field (bytes "ab ,cd") 0 = .ok r ∧ r.cursor = r.last ∧ r.cursor = 2 ∧
      (bytes "ab ,cd")[r.cursor + 1]? = some ch_comma :=
  read_field_cursor_at_span_end [] [] 97 (bytes "b") [ch_space] (bytes "cd")
    (by decide) (by decide) (by decide) (by decide) (by decide) (by decide)

/-! ## The cursor and the end of the buffer in quoted mode -/

/-- Claim C11 at the empty quoted field: on `"",x` the call returns the null
field with the cursor at index 1, which is the closing quote, and not at
index 2 after it. -/
theorem read_field_empty_quoted_cursor :
    read_field ([ch_quote, ch_quote] ++ bytes ",x") 0
        = .ok { first := 1, last := 1, mask := null_type, cursor := 1 } ∧
      ([ch_quote, ch_quote] ++ bytes ",x")[1]? = some ch_quote := by
  decide

/-- Claim C12 at two buffers: on the unterminated quoted field `"a` the byte at
`end` is read after the loop (line 118), and on a buffer of one space the
byte at `end` is read after the left trim (line 28). -/
theorem read_field_reads_at_end :
    read_field (ch_quote :: bytes "a") 0 = .error .out_of_bounds ∧
      read_field [ch_space] 0 = .error .out_of_bounds := by
  decide

/-- Claim C13 at a buffer that is one quote character: the call returns the
null field, no fault is raised. -/
theorem read_field_lone_quote_returns :
    read_field [ch_quote] 0
      = .ok { first := 1, last := 1, mask := null_type, cursor := 1 } := by
  decide

/-- Claim C16 at a lone sign: the field `-` of `a,-,b` is returned with the
type `integer` though its span, the one byte `-`, has no digit. -/
theorem read_field_lone_sign_integer :
    read_field (bytes "a,-,b") 2
        = .ok { first := 2, last := 3, mask := integer_type, cursor := 3 } ∧
      span_bytes (bytes "a,-,b")
        { first := 2, last := 3, mask := integer_type, cursor := 3 } = [ch_minus] := by
  decide

/-! ## The loop body on a period and on whitespace -/

/-- Claim C17, as the code has it: once whitespace was seen, a period adds
both `double` and `integer` to the exclusion mask and changes nothing else. -/
theorem scan_body_period_after_space (st : ScanState) (hs : st.seen_space = true) :
    scan_body ch_period st
      = { st with
          excl_type_mask := st.excl_type_mask ||| (double_type ||| integer_type) } := by
  obtain ⟨it, incl, excl, sp, ss⟩ := st
  simp only at hs
  subst hs
  rfl

/-- Claim C17 as stated fails: after whitespace a period takes the exclusion
mask from 0 to `double|integer` (6), while a second period with no whitespace
before it takes the exclusion mask from `integer` (4) to 6, adding `double`
alone. -/
theorem scan_body_period_after_space_adds_integer :
    (scan_body ch_period
        { it := 3, incl_type_mask := 7, excl_type_mask := 0
          seen_period := false, seen_space := true }).excl_type_mask
        = double_type ||| integer_type ∧
      (scan_body ch_period
        { it := 3, incl_type_mask := 7, excl_type_mask := 0
          seen_period := false, seen_space := true }).excl_type_mask ≠ 0 ||| double_type ∧
      (scan_body ch_period
        { it := 3, incl_type_mask := 7, excl_type_mask := 0
          seen_period := true, seen_space := false }).excl_type_mask = 0 ||| double_type := by
  decide

/-- Claim C18, as the code has it: a byte that is not a digit, not a period
and not a terminator sets the whitespace-seen state and leaves both masks as
they are when it is whitespace, and adds `double` and `integer` to the
exclusion mask when it is not. -/
theorem scan_body_other_byte (c : Nat) (st : ScanState)
    (hd : ¬(ch_0 ≤ c ∧ c ≤ ch_9)) (hp : c ≠ ch_period)
    (hnt : c ≠ ch_comma ∧ c ≠ ch_cr ∧ c ≠ ch_lf) :
    (isspace c = true → scan_body c st = { st with seen_space := true }) ∧
      (isspace c = false → scan_body c st
        = { st with
            excl_type_mask := st.excl_type_mask ||| (double_type ||| integer_type) }) := by
  unfold scan_body
  rw [if_neg hd, if_neg hp, if_pos ⟨hnt.2.1, hnt.2.2⟩]
  constructor
  · intro h
    rw [if_pos h]
  · intro h
    rw [if_neg (by rw [h]; exact Bool.false_ne_true)]

/-- Claim C18 as stated fails: a space leaves the exclusion mask at 0, and the
field `12 ` with its trailing space resolves to `integer`. -/
theorem scan_body_space_excludes_nothing :
    scan_body ch_space
        { it := 2, incl_type_mask := 7, excl_type_mask := 0
          seen_period := false, seen_space := false }
        = { it := 2, incl_type_mask := 7, excl_type_mask := 0
            seen_period := false, seen_space := true } ∧
      read_field (bytes "12 ,x") 0
        = .ok { first := 0, last := 2, mask := integer_type, cursor := 2 } := by
  decide


/-! ## Column aggregation by bitwise AND -/

theorem foldl_and_absorb (ms : List Nat) (acc y : Nat) (h : acc &&& y = acc) :
    ms.foldl (fun running m => running &&& m) acc &&& y
      = ms.foldl (fun running m => running &&& m) acc := by
  induction ms generalizing acc with
  | nil => exact h
  | cons m ms ih =>
    apply ih
    rw [Nat.and_assoc, Nat.and_comm m y, ← Nat.and_assoc, h]

theorem foldl_and_mem (ms : List Nat) (acc x : Nat) (hx : x ∈ ms) :
    ms.foldl (fun running m => running &&& m) acc &&& x
      = ms.foldl (fun running m => running &&& m) acc := by
  induction ms generalizing acc with
  | nil => cases hx
  | cons m ms ih =>
    rcases List.mem_cons.1 hx with rfl | hx
    · exact foldl_and_absorb ms (acc &&& x) x (by rw [Nat.and_assoc, Nat.and_self])
    · exact ih _ hx

theorem column_type_disjoint (masks : List Nat) (a b : Nat) (ha : a ∈ masks) (hb : b ∈ masks)
    (hab : a &&& b = 0) : column_type masks = 0 := by
  have h1 := foldl_and_mem masks (bit_not 0) a ha
  have h2 := foldl_and_mem masks (bit_not 0) b hb
  unfold column_type
  rw [← h2, ← h1, Nat.and_assoc, hab, Nat.and_zero]

theorem mem_of_resolved (fields : List (List Nat)) (masks : List Nat)
    (hm : fields.map resolved_mask = masks.map some) (f : List Nat) (m : Nat)
    (hf : f ∈ fields) (hr : resolved_mask f = some m) : m ∈ masks := by
  have h1 : resolved_mask f ∈ fields.map resolved_mask := List.mem_map_of_mem _ hf
  rw [hm, hr] at h1
  obtain ⟨x, hx, hxe⟩ := List.mem_map.1 h1
  cases hxe
  exact hx

/-- Claim C14, as the modelled aggregation has it: when the column's mask is
the bitwise AND of the resolved masks of its rows, a column that holds the
field `abc` and at least one field that resolves to `integer` or `double`
ends with the mask 0, no type bit set. -/
theorem column_type_numeric_and_abc (fields : List (List Nat)) (masks : List Nat)
    (hm : fields.map resolved_mask = masks.map some)
    (habc : bytes "abc" ∈ fields)
    (hnum : ∃ f ∈ fields,
      resolved_mask f = some integer_type ∨ resolved_mask f = some double_type) :
    column_type masks = 0 := by
  have h1 : resolved_mask (bytes "abc") = some string_type := by decide
  have hs := mem_of_resolved fields masks hm _ _ habc h1
  obtain ⟨f, hf, hr⟩ := hnum
  rcases hr with hr | hr
  · exact column_type_disjoint masks _ _ hs (mem_of_resolved fields masks hm f _ hf hr)
      (by decide)
  · exact column_type_disjoint masks _ _ hs (mem_of_resolved fields masks hm f _ hf hr)
      (by decide)

/-- Claim C14 as stated fails: for the rows `123`, `45.6` and `abc` the
resolved masks are `integer`, `double` and `string`, and their bitwise AND is
0, not `string`. -/
theorem column_type_not_string :
    [bytes "123", bytes "45.6", bytes "abc"].map resolved_mask
        = [some integer_type, some double_type, some string_type] ∧
      column_type [integer_type, double_type, string_type] = 0 ∧
      column_type [integer_type, double_type, string_type] ≠ string_type := by
  decide

/-- Claim C14, as the modelled aggregation has it, on the rows `123` and `abc`. -/
theorem column_type_numeric_and_abc_witness :
    column_type [integer_type, string_type] = 0 :=
  column_type_numeric_and_abc [bytes "123", bytes "abc"] [integer_type, string_type]
    (by decide) (by decide) ⟨bytes "123", by decide, Or.inl (by decide)⟩

/-- Claim C17, as the code has it, at a state in which whitespace was seen. -/
theorem scan_body_period_after_space_witness :
    scan_body ch_period
        { it := 3, incl_type_mask := 7, excl_type_mask := 0
          seen_period := false, seen_space := true }
      = { it := 3, incl_type_mask := 7
          excl_type_mask := 0 ||| (double_type ||| integer_type)
          seen_period := false, seen_space := true } :=
  scan_body_period_after_space
    { it := 3, incl_type_mask := 7, excl_type_mask := 0
      seen_period := false, seen_space := true } rfl

/-- Claim C18, as the code has it, at the space character. -/
theorem scan_body_other_byte_witness :
    scan_body ch_space
        { it := 2, incl_type_mask := 7, excl_type_mask := 0
          seen_period := false, seen_space := false }
      = { it := 2, incl_type_mask := 7, excl_type_mask := 0
          seen_period := false, seen_space := true } :=
  (scan_body_other_byte ch_space
    { it := 2, incl_type_mask := 7, excl_type_mask := 0
      seen_period := false, seen_space := false }
    (by decide) (by decide) (by decide)).1 (by decide)


/-! ## The span of an unquoted field -/

theorem last_of_concat (l init : List Nat) (z : Nat) (h : l = init ++ [z])
    (hlast : ∀ y, l.getLast? = some y → isspace y = false) : isspace z = false := by
  apply hlast
  rw [h, List.getLast?_concat]

theorem read_field_unquoted_trimmed (pre lead : List Nat) (c : Nat)
    (mid trail rest : List Nat)
    (hlead : ∀ x ∈ lead, isspace x = true) (hc : isspace c = false) (hq : c ≠ ch_quote)
    (hlast : ∀ z, (c :: mid).getLast? = some z → isspace z = false)
    (htrail : ∀ x ∈ trail, isspace x = true)
    (hnt : ∀ x ∈ c :: (mid ++ trail), x ≠ ch_comma ∧ x ≠ ch_cr ∧ x ≠ ch_lf)
    (hrest : at_field_end rest = true) :
    read_field (pre ++ (lead ++ (c :: ((mid ++ trail) ++ rest)))) pre.length
      = .ok { first := pre.length + lead.length
              last := pre.length + lead.length + (mid.length + 1)
              mask := resolve
                (scan false (if c = ch_minus ∨ c = ch_plus then mid ++ trail
                    else c :: (mid ++ trail))
                  (init_state false c (pre.length + lead.length))).incl_type_mask
                (scan false (if c = ch_minus ∨ c = ch_plus then mid ++ trail
                    else c :: (mid ++ trail))
                  (init_state false c (pre.length + lead.length))).excl_type_mask
              cursor := pre.length + lead.length + (mid.length + 1) } := by
  have h := (read_field_unquoted pre lead c (mid ++ trail) rest hlead hc hq hnt hrest).1
  rcases List.eq_nil_or_concat (c :: mid) with h0 | ⟨init, z, h0⟩
  · cases h0
  · rw [List.concat_eq_append] at h0
    have hz : isspace z = false := last_of_concat _ init z h0 hlast
    have hl : mid.length = init.length := by
      have := congrArg List.length h0
      simp only [List.length_cons, List.length_append, List.length_nil] at this
      omega
    have hs : pre ++ (lead ++ (c :: ((mid ++ trail) ++ rest)))
        = (pre ++ (lead ++ init)) ++ z :: (trail ++ rest) := by
      have : c :: ((mid ++ trail) ++ rest) = (c :: mid) ++ (trail ++ rest) := by simp
      rw [this, h0]
      simp
    have hr := rtrim_trail _ (pre.length + lead.length) (pre ++ (lead ++ init)) z trail
      rest hs hz htrail (by simp only [List.length_append]; omega)
    have e2 : (pre ++ (lead ++ init)).length + 1 + trail.length
        = pre.length + lead.length + ((mid ++ trail).length + 1) := by
      simp only [List.length_append]
      omega
    have e3 : (pre ++ (lead ++ init)).length + 1 = pre.length + lead.length + (mid.length + 1) := by
      simp only [List.length_append]
      omega
    rw [e2, e3] at hr
    rw [hr] at h
    exact h

theorem span_bytes_unquoted (pre lead : List Nat) (c : Nat) (mid trail rest : List Nat)
    (m cur : Nat) :
    span_bytes (pre ++ (lead ++ (c :: ((mid ++ trail) ++ rest))))
      { first := pre.length + lead.length
        last := pre.length + lead.length + (mid.length + 1), mask := m, cursor := cur }
      = c :: mid := by
  have hdrop : List.drop (pre.length + lead.length)
      (pre ++ (lead ++ (c :: ((mid ++ trail) ++ rest)))) = (c :: mid) ++ (trail ++ rest) := by
    have h := List.drop_left (pre ++ lead) ((c :: mid) ++ (trail ++ rest))
    have e1 : (pre ++ lead) ++ ((c :: mid) ++ (trail ++ rest))
        = pre ++ (lead ++ (c :: ((mid ++ trail) ++ rest))) := by simp
    have e2 : (pre ++ lead).length = pre.length + lead.length := by simp
    rw [e1, e2] at h
    exact h
  unfold span_bytes
  simp only []
  rw [hdrop, Nat.add_sub_cancel_left]
  exact List.take_left' (by simp)

theorem strip_right_trail (core trail : List Nat)
    (hlast : ∀ z, core.getLast? = some z → isspace z = false)
    (htrail : ∀ x ∈ trail, isspace x = true) : strip_right (core ++ trail) = core := by
  unfold strip_right
  rw [List.reverse_append,
    List.dropWhile_append_of_pos (fun a ha => htrail a (List.mem_reverse.1 ha))]
  rcases List.eq_nil_or_concat core with h0 | ⟨init, z, h0⟩
  · subst h0
    rfl
  · rw [List.concat_eq_append] at h0
    have hz : isspace z = false := last_of_concat _ init z h0 hlast
    subst h0
    rw [List.reverse_append, List.reverse_singleton, List.singleton_append,
      List.dropWhile_cons_of_neg (by rw [hz]; exact Bool.false_ne_true)]
    simp

theorem claimed_span_eq (pre lead : List Nat) (c : Nat) (mid trail rest : List Nat)
    (hlead : ∀ x ∈ lead, isspace x = true ∧ x ≠ ch_cr ∧ x ≠ ch_lf)
    (hc : isspace c = false)
    (hlast : ∀ z, (c :: mid).getLast? = some z → isspace z = false)
    (htrail : ∀ x ∈ trail, isspace x = true)
    (hnt : ∀ x ∈ c :: (mid ++ trail), x ≠ ch_comma ∧ x ≠ ch_cr ∧ x ≠ ch_lf)
    (hrest : at_field_end rest = true) :
    claimed_unquoted_span (pre ++ (lead ++ (c :: ((mid ++ trail) ++ rest)))) pre.length
      = c :: mid := by
  have hcomma : ∀ x, isspace x = true → x ≠ ch_comma := by
    intro x hx h
    subst h
    revert hx
    decide
  have hall : ∀ x ∈ lead ++ (c :: (mid ++ trail)),
      (fun c => c != ch_comma && c != ch_cr && c != ch_lf) x = true := by
    intro x hx
    simp only [Bool.and_eq_true, bne_iff_ne, ne_eq]
    rcases List.mem_append.1 hx with hx | hx
    · exact ⟨⟨hcomma x (hlead x hx).1, (hlead x hx).2.1⟩, (hlead x hx).2.2⟩
    · exact ⟨⟨(hnt x hx).1, (hnt x hx).2.1⟩, (hnt x hx).2.2⟩
  have htw : List.takeWhile (fun c => c != ch_comma && c != ch_cr && c != ch_lf) rest = [] := by
    cases rest with
    | nil => rfl
    | cons t r =>
      simp only [at_field_end, Bool.or_eq_true, beq_iff_eq] at hrest
      apply List.takeWhile_cons_of_neg
      simp only [Bool.and_eq_true, bne_iff_ne, ne_eq]
      tauto
  have e : pre ++ (lead ++ (c :: ((mid ++ trail) ++ rest)))
      = pre ++ ((lead ++ (c :: (mid ++ trail))) ++ rest) := by simp
  unfold claimed_unquoted_span strip_left
  rw [e, List.drop_left, List.takeWhile_append_of_pos hall, htw, List.append_nil,
    List.dropWhile_append_of_pos (fun a ha => (hlead a ha).1),
    List.dropWhile_cons_of_neg (by rw [hc]; exact Bool.false_ne_true)]
  have e2 : c :: (mid ++ trail) = (c :: mid) ++ trail := by simp
  rw [e2]
  exact strip_right_trail (c :: mid) trail hlast htrail

theorem read_field_at_comma (pre lead rest : List Nat)
    (hlead : ∀ x ∈ lead, isspace x = true) :
    read_field (pre ++ (lead ++ ch_comma :: rest)) pre.length
      = .ok { first := pre.length + lead.length, last := pre.length + lead.length
              mask := null_type, cursor := pre.length + lead.length } := by
  have hcs : isspace ch_comma = false ∧ ¬(ch_comma = ch_minus ∨ ch_comma = ch_plus) ∧
      (ch_comma == ch_quote) = false ∧
      ¬(ch_comma ≠ ch_comma ∧ ch_comma ≠ ch_cr ∧ ch_comma ≠ ch_lf) := by
    decide
  have hget : (pre ++ (lead ++ ch_comma :: rest))[pre.length + lead.length]? = some ch_comma := by
    have h := getElem?_mid (pre ++ lead) ch_comma rest
    have e1 : (pre ++ lead) ++ ch_comma :: rest = pre ++ (lead ++ ch_comma :: rest) := by simp
    have e2 : (pre ++ lead).length = pre.length + lead.length := by simp
    rw [e1, e2] at h
    exact h
  have hdrop : List.drop (pre.length + lead.length) (pre ++ (lead ++ ch_comma :: rest))
      = ch_comma :: rest := by
    have h := List.drop_left (pre ++ lead) (ch_comma :: rest)
    have e1 : (pre ++ lead) ++ ch_comma :: rest = pre ++ (lead ++ ch_comma :: rest) := by simp
    have e2 : (pre ++ lead).length = pre.length + lead.length := by simp
    rw [e1, e2] at h
    exact h
  have hlen : pre.length ≠ (pre ++ (lead ++ ch_comma :: rest)).length := by
    simp only [List.length_append, List.length_cons]
    omega
  unfold read_field
  rw [if_neg hlen]
  simp only [ltrim_skip pre lead ch_comma rest hlead hcs.1, hget, hcs.2.2.1, Bool.false_eq_true,
    if_false, init_state_plain ch_comma _ hcs.2.1, hdrop,
    scan_unquoted_stop ch_comma rest _ hcs.2.2.2]
  unfold finish_field
  simp only [Bool.not_false, if_true, rtrim_self]

theorem claimed_span_at_comma (pre lead rest : List Nat)
    (hlead : ∀ x ∈ lead, isspace x = true ∧ x ≠ ch_cr ∧ x ≠ ch_lf) :
    claimed_unquoted_span (pre ++ (lead ++ ch_comma :: rest)) pre.length = [] := by
  have hcomma : ∀ x, isspace x = true → x ≠ ch_comma := by
    intro x hx h
    subst h
    revert hx
    decide
  have hall : ∀ x ∈ lead,
      (fun c => c != ch_comma && c != ch_cr && c != ch_lf) x = true := by
    intro x hx
    simp only [Bool.and_eq_true, bne_iff_ne, ne_eq]
    exact ⟨⟨hcomma x (hlead x hx).1, (hlead x hx).2.1⟩, (hlead x hx).2.2⟩
  unfold claimed_unquoted_span strip_left
  rw [List.drop_left, List.takeWhile_append_of_pos hall,
    List.takeWhile_cons_of_neg (by decide), List.append_nil]
  have h1 : List.dropWhile isspace lead = [] := by
    have := @List.dropWhile_append_of_pos Nat isspace lead []
      (fun a ha => (hlead a ha).1)
    simpa using this
  rw [h1]
  rfl


/-- The span of an unquoted field for an `ltrim` that passes every `isspace`
byte: when the whitespace at the cursor holds no CR or LF, the span returned is
exactly the bytes from the cursor up to the first comma, CR or LF (or `end`)
with leading and trailing whitespace removed; it has no comma, CR or LF and
neither starts nor ends with whitespace.  The second part is the empty field
before a comma. -/
theorem read_field_unquoted_span (pre lead : List Nat) (c : Nat) (mid trail rest : List Nat)
    (hlead : ∀ x ∈ lead, isspace x = true ∧ x ≠ ch_cr ∧ x ≠ ch_lf)
    (hc : isspace c = false) (hq : c ≠ ch_quote)
    (hlast : ∀ z, (c :: mid).getLast? = some z → isspace z = false)
    (htrail : ∀ x ∈ trail, isspace x = true)
    (hnt : ∀ x ∈ c :: (mid ++ trail), x ≠ ch_comma ∧ x ≠ ch_cr ∧ x ≠ ch_lf)
    (hrest : at_field_end rest = true) :
    (∃ r, read_field (pre ++ lead ++ c :: mid ++ trail ++ rest) pre.length = .ok r ∧
      span_bytes (pre ++ lead ++ c :: mid ++ trail ++ rest) r
        = claimed_unquoted_span (pre ++ lead ++ c :: mid ++ trail ++ rest) pre.length ∧
      span_bytes (pre ++ lead ++ c :: mid ++ trail ++ rest) r = c :: mid ∧
      (∀ x ∈ span_bytes (pre ++ lead ++ c :: mid ++ trail ++ rest) r,
        x ≠ ch_comma ∧ x ≠ ch_cr ∧ x ≠ ch_lf) ∧
      (∀ z, (span_bytes (pre ++ lead ++ c :: mid ++ trail ++ rest) r).head? = some z →
        isspace z = false) ∧
      (∀ z, (span_bytes (pre ++ lead ++ c :: mid ++ trail ++ rest) r).getLast? = some z →
        isspace z = false)) ∧
    (∃ r, read_field (pre ++ lead ++ [ch_comma] ++ rest) pre.length = .ok r ∧
      span_bytes (pre ++ lead ++ [ch_comma] ++ rest) r = [] ∧
      claimed_unquoted_span (pre ++ lead ++ [ch_comma] ++ rest) pre.length = []) := by
  have e : pre ++ lead ++ c :: mid ++ trail ++ rest
      = pre ++ (lead ++ (c :: ((mid ++ trail) ++ rest))) := by simp
  have e0 : pre ++ lead ++ [ch_comma] ++ rest = pre ++ (lead ++ ch_comma :: rest) := by simp
  have hlead1 : ∀ x ∈ lead, isspace x = true := fun x hx => (hlead x hx).1
  have hr := read_field_unquoted_trimmed pre lead c mid trail rest hlead1 hc hq hlast htrail
    hnt hrest
  have hsp := span_bytes_unquoted pre lead c mid trail rest
  have hcl := claimed_span_eq pre lead c mid trail rest hlead hc hlast htrail hnt hrest
  constructor
  · rw [e]
    refine ⟨_, hr, ?_, hsp _ _, ?_, ?_, ?_⟩
    · rw [hsp, hcl]
    · rw [hsp]
      intro x hx
      apply hnt
      rcases List.mem_cons.1 hx with rfl | hx
      · simp
      · simp [hx]
    · rw [hsp]
      intro z hz
      simp only [List.head?_cons, Option.some.injEq] at hz
      subst hz
      exact hc
    · rw [hsp]
      exact hlast
  · rw [e0]
    refine ⟨_, read_field_at_comma pre lead rest hlead1, ?_, claimed_span_at_comma pre lead rest hlead⟩
    unfold span_bytes
    simp

/-- The class of bytes `ltrim` passes matters for the span: for an `ltrim`
that passes every `isspace` byte, LF among them, with the cursor at the LF that
starts the buffer the bytes up to the first comma, CR or LF are none, yet the
span returned is `abc`, taken after the LF. -/
theorem read_field_span_past_lf :
    read_field ([ch_lf] ++ bytes "abc,d") 0
        = .ok { first := 1, last := 4, mask := string_type, cursor := 4 } ∧
      span_bytes ([ch_lf] ++ bytes "abc,d")
        { first := 1, last := 4, mask := string_type, cursor := 4 } = bytes "abc" ∧
      claimed_unquoted_span ([ch_lf] ++ bytes "abc,d") 0 = [] := by
  decide

/-- The span of the unquoted field on the buffer `a,  b c ,d` with the cursor
at index 2. -/
theorem read_field_unquoted_span_witness :
    ∃ r, read_field (bytes "a,  b c ,d") 2 = .ok r ∧
      span_bytes (bytes "a,  b c ,d") r = claimed_unquoted_span (bytes "a,  b c ,d") 2 ∧
      span_bytes (bytes "a,  b c ,d") r = bytes "b c" :=
  (read_field_unquoted_span (bytes "a,") [ch_space, ch_space] 98 (bytes " c")
    [ch_space] (bytes ",d") (by decide) (by decide) (by decide) (by decide) (by decide)
    (by decide) (by decide)).1.imp fun _ h => ⟨h.1, h.2.1, h.2.2.1⟩


/-! ## The resolved type against the reference classification -/

theorem is_digit_iff (c : Nat) : is_digit c = true ↔ (ch_0 ≤ c ∧ c ≤ ch_9) := by
  simp [is_digit]

theorem scan_spaces_masks (trail : List Nat) (st : ScanState)
    (htrail : ∀ x ∈ trail, isspace x = true)
    (hnt : ∀ x ∈ trail, x ≠ ch_comma ∧ x ≠ ch_cr ∧ x ≠ ch_lf) :
    (scan false trail st).incl_type_mask = st.incl_type_mask ∧
      (scan false trail st).excl_type_mask = st.excl_type_mask := by
  induction trail generalizing st with
  | nil => rw [scan_nil]; exact ⟨rfl, rfl⟩
  | cons w ws ih =>
    have hw := htrail w (by simp)
    have hwn := hnt w (by simp)
    rw [scan_unquoted_step w ws st hwn, scan_body_space w st hw hwn]
    exact ih _ (fun x hx => htrail x (by simp [hx])) (fun x hx => hnt x (by simp [hx]))

theorem digit_or_period_cases (l : List Nat)
    (h : ∀ x ∈ l, is_digit x = true ∨ x = ch_period) :
    (∀ x ∈ l, is_digit x = true) ∨
      (∃ D1 D2, l = D1 ++ ch_period :: D2 ∧ (∀ x ∈ D1, is_digit x = true) ∧
        (∀ x ∈ D2, is_digit x = true)) ∨
      (∃ A B C, l = A ++ ch_period :: (B ++ ch_period :: C)) := by
  induction l with
  | nil => exact Or.inl (fun x hx => absurd hx (List.not_mem_nil x))
  | cons a l ih =>
    have ha := h a (by simp)
    rcases ih (fun x hx => h x (by simp [hx])) with h1 | ⟨D1, D2, rfl, h1, h2⟩ | ⟨A, B, C, rfl⟩
    · rcases ha with ha | rfl
      · left
        intro x hx
        rcases List.mem_cons.1 hx with rfl | hx
        · exact ha
        · exact h1 x hx
      · right; left
        exact ⟨[], l, rfl, ⟨fun x hx => absurd hx (List.not_mem_nil x), h1⟩⟩
    · rcases ha with ha | rfl
      · right; left
        refine ⟨a :: D1, D2, rfl, ?_, h2⟩
        intro x hx
        rcases List.mem_cons.1 hx with rfl | hx
        · exact ha
        · exact h1 x hx
      · right; right
        exact ⟨[], D1, D2, rfl⟩
    · right; right
      exact ⟨a :: A, B, C, rfl⟩

theorem period_not_digit : is_digit ch_period = false := by decide

theorem count_period_digits (l : List Nat) (h : ∀ x ∈ l, is_digit x = true) :
    l.count ch_period = 0 := by
  apply List.count_eq_zero.2
  intro hm
  have := h _ hm
  rw [period_not_digit] at this
  cases this

theorem scan_body_other_excl (x : Nat) (st : ScanState) (he : excl_ok st.excl_type_mask)
    (hd : is_digit x = false) (hp : x ≠ ch_period)
    (hnt : x ≠ ch_comma ∧ x ≠ ch_cr ∧ x ≠ ch_lf) (hs : isspace x = false) :
    (scan_body x st).excl_type_mask = double_type ||| integer_type := by
  have hd1 : ¬(ch_0 ≤ x ∧ x ≤ ch_9) := by
    intro h
    rw [(is_digit_iff x).2 h] at hd
    cases hd
  obtain ⟨it, incl, excl, sp, ss⟩ := st
  unfold scan_body
  rw [if_neg hd1, if_neg hp, if_pos ⟨hnt.2.1, hnt.2.2⟩, if_neg (by rw [hs]; exact Bool.false_ne_true)]
  simp only [excl_ok] at he ⊢
  rcases he with rfl | rfl | rfl | rfl <;> decide

theorem scan_body_after_space_excl (z : Nat) (st : ScanState) (he : excl_ok st.excl_type_mask)
    (hss : st.seen_space = true) (hnt : z ≠ ch_comma ∧ z ≠ ch_cr ∧ z ≠ ch_lf)
    (hs : isspace z = false) :
    (scan_body z st).excl_type_mask = double_type ||| integer_type := by
  by_cases hd : ch_0 ≤ z ∧ z ≤ ch_9
  · exact scan_body_digit_after_space z st hd hss he
  · by_cases hp : z = ch_period
    · subst hp
      obtain ⟨it, incl, excl, sp, ss⟩ := st
      simp only at hss he
      subst hss
      unfold scan_body
      rw [if_neg hd, if_pos rfl]
      simp only [if_true, excl_ok] at he ⊢
      rcases he with rfl | rfl | rfl | rfl <;> decide
    · have hd2 : is_digit z = false := by
        cases h : is_digit z
        · rfl
        · exact absurd ((is_digit_iff z).1 h) hd
      exact scan_body_other_excl z st he hd2 hp hnt hs

theorem bad_byte_excl (A C : List Nat) (x : Nat) (st : ScanState)
    (hi : incl_ok st.incl_type_mask) (he : excl_ok st.excl_type_mask)
    (hA : ∀ y ∈ A, y ≠ ch_comma ∧ y ≠ ch_cr ∧ y ≠ ch_lf)
    (hx : x ≠ ch_comma ∧ x ≠ ch_cr ∧ x ≠ ch_lf)
    (hC : ∀ y ∈ C, y ≠ ch_comma ∧ y ≠ ch_cr ∧ y ≠ ch_lf)
    (hd : is_digit x = false) (hp : x ≠ ch_period)
    (hlast : ∀ z, (A ++ x :: C).getLast? = some z → isspace z = false) :
    (scan false (A ++ x :: C) st).excl_type_mask = double_type ||| integer_type := by
  have hA1 := scan_masks false A st hi he
  rw [scan_unquoted_split A _ st hA, scan_unquoted_step x C _ hx]
  cases hs : isspace x
  · apply scan_excl_full
    simp only []
    exact scan_body_other_excl x _ hA1.2 hd hp hx hs
  · rcases List.eq_nil_or_concat C with h0 | ⟨C1, z, h0⟩
    · subst h0
      have := hlast x (by simp)
      rw [hs] at this
      cases this
    · rw [List.concat_eq_append] at h0
      subst h0
      have hz : isspace z = false := by
        apply hlast
        rw [← List.cons_append, ← List.append_assoc, List.getLast?_concat]
      have hzn := hC z (by simp)
      have hC1 : ∀ y ∈ C1, y ≠ ch_comma ∧ y ≠ ch_cr ∧ y ≠ ch_lf :=
        fun y hy => hC y (by simp [hy])
      rw [scan_unquoted_split C1 _ _ hC1, scan_unquoted_step z [] _ hzn, scan_nil]
      simp only []
      have hw1 := scan_body_masks x _ hA1.1 hA1.2
      have hsp : (scan_body x (scan false A st)).seen_space = true := by
        rw [scan_body_space x _ hs hx]
      have hC2 := scan_unquoted_preserves
        (fun incl excl _ ss => (incl_ok incl ∧ excl_ok excl) ∧ ss = true)
        (fun c st h => ⟨scan_body_masks c st h.1.1 h.1.2, scan_body_keeps_space c st h.2⟩) C1
        ⟨(scan false A st).it + 1, (scan_body x (scan false A st)).incl_type_mask,
          (scan_body x (scan false A st)).excl_type_mask,
          (scan_body x (scan false A st)).seen_period,
          (scan_body x (scan false A st)).seen_space⟩ ⟨hw1, hsp⟩
      exact scan_body_after_space_excl z _ hC2.1.2 hC2.2 hzn hz


theorem mask_reference (B trail : List Nat) (n i0 : Nat) (hi0 : incl_ok i0)
    (hB : B = [] → i0 = string_type ||| (double_type ||| integer_type))
    (hlast : ∀ z, B.getLast? = some z → isspace z = false)
    (hntB : ∀ x ∈ B, x ≠ ch_comma ∧ x ≠ ch_cr ∧ x ≠ ch_lf)
    (htrail : ∀ x ∈ trail, isspace x = true)
    (hnttrail : ∀ x ∈ trail, x ≠ ch_comma ∧ x ≠ ch_cr ∧ x ≠ ch_lf) :
    resolve (scan false (B ++ trail) ⟨n, i0, 0, false, false⟩).incl_type_mask
        (scan false (B ++ trail) ⟨n, i0, 0, false, false⟩).excl_type_mask
      = if B.all is_digit = true then integer_type
        else if (B.all (fun c => is_digit c || c == ch_period)
            && B.count ch_period == 1) = true then double_type
        else string_type := by
  have he0 : excl_ok 0 := Or.inl rfl
  have hm := scan_spaces_masks trail (scan false B ⟨n, i0, 0, false, false⟩) htrail hnttrail
  rw [scan_unquoted_split B trail _ hntB, hm.1, hm.2]
  have hsm := scan_masks false B ⟨n, i0, 0, false, false⟩ hi0 he0
  have hinv : excl_ok (0 : Nat) ∧ (false = true → (0 : Nat) = 4 ∨ (0 : Nat) = 6) :=
    ⟨he0, fun h => by cases h⟩
  have hfull : (scan false B ⟨n, i0, 0, false, false⟩).excl_type_mask
        = double_type ||| integer_type →
      resolve (scan false B ⟨n, i0, 0, false, false⟩).incl_type_mask
        (scan false B ⟨n, i0, 0, false, false⟩).excl_type_mask = string_type := by
    intro h
    rw [h]
    exact resolve_excl_full _ hsm.1
  by_cases hd : B.all is_digit = true
  · rw [if_pos hd]
    have hd1 : ∀ d ∈ B, ch_0 ≤ d ∧ d ≤ ch_9 :=
      fun d hdm => (is_digit_iff d).1 (List.all_eq_true.1 hd d hdm)
    have hsc := scan_digits B [] ⟨n, i0, 0, false, false⟩ hd1 rfl hi0
    rw [List.append_nil, scan_nil] at hsc
    rw [hsc]
    simp only []
    by_cases hBn : B = []
    · rw [if_pos hBn, hB hBn]
      decide
    · rw [if_neg hBn]
      decide
  · rw [if_neg hd]
    have hnd : ¬∀ x ∈ B, is_digit x = true := fun h => hd (List.all_eq_true.2 h)
    by_cases hall : ∀ x ∈ B, is_digit x = true ∨ x = ch_period
    · have hall1 : B.all (fun c => is_digit c || c == ch_period) = true := by
        apply List.all_eq_true.2
        intro x hx
        rcases hall x hx with h | h
        · simp [h]
        · simp [h]
      rcases digit_or_period_cases B hall with h1 | ⟨D1, D2, rfl, h1, h2⟩ | ⟨A, B1, C, rfl⟩
      · exact absurd h1 hnd
      · have hc : (D1 ++ ch_period :: D2).count ch_period = 1 := by
          rw [List.count_append, List.count_cons_self, count_period_digits D1 h1,
            count_period_digits D2 h2]
        rw [if_pos (by rw [hall1, hc]; rfl)]
        exact mask_double D1 D2 n i0 hi0 (fun d hdm => (is_digit_iff d).1 (h1 d hdm))
          (fun d hdm => (is_digit_iff d).1 (h2 d hdm))
      · have hc : (A ++ ch_period :: (B1 ++ ch_period :: C)).count ch_period ≠ 1 := by
          rw [List.count_append, List.count_cons_self, List.count_append,
            List.count_cons_self]
          omega
        rw [if_neg (by
          intro h
          simp only [Bool.and_eq_true, beq_iff_eq] at h
          exact hc h.2)]
        apply hfull
        exact two_periods_excl A B1 C _ (fun x hx => hntB x (by simp [hx]))
          (fun x hx => hntB x (by simp [hx])) hinv
    · have hall1 : ¬(B.all (fun c => is_digit c || c == ch_period) = true) := by
        intro h
        apply hall
        intro x hx
        have := List.all_eq_true.1 h x hx
        simp only [Bool.or_eq_true, beq_iff_eq] at this
        exact this
      rw [if_neg (by
        intro h
        simp only [Bool.and_eq_true] at h
        exact hall1 h.1)]
      apply hfull
      have hex : ∃ x ∈ B, is_digit x = false ∧ x ≠ ch_period := by
        by_contra hcon
        apply hall
        intro x hx
        by_cases h1 : is_digit x = true
        · exact Or.inl h1
        · by_cases h2 : x = ch_period
          · exact Or.inr h2
          · exact absurd ⟨x, hx, by simpa using h1, h2⟩ hcon
      obtain ⟨x, hx, hxd, hxp⟩ := hex
      obtain ⟨A, C, rfl⟩ := List.append_of_mem hx
      exact bad_byte_excl A C x _ hi0 he0 (fun y hy => hntB y (by simp [hy]))
        (hntB x (by simp)) (fun y hy => hntB y (by simp [hy])) hxd hxp hlast

/-- Claim C19: for an unquoted field whose trimmed span `c :: mid` is not
empty, the type returned is the reference classification of that span. -/
theorem read_field_type_is_reference (pre lead : List Nat) (c : Nat)
    (mid trail rest : List Nat)
    (hlead : ∀ x ∈ lead, isspace x = true) (hc : isspace c = false) (hq : c ≠ ch_quote)
    (hlast : ∀ z, (c :: mid).getLast? = some z → isspace z = false)
    (htrail : ∀ x ∈ trail, isspace x = true)
    (hnt : ∀ x ∈ c :: (mid ++ trail), x ≠ ch_comma ∧ x ≠ ch_cr ∧ x ≠ ch_lf)
    (hrest : at_field_end rest = true) :
    ∃ r, read_field (pre ++ lead ++ c :: mid ++ trail ++ rest) pre.length = .ok r ∧
      span_bytes (pre ++ lead ++ c :: mid ++ trail ++ rest) r = c :: mid ∧
      r.mask = reference_type (span_bytes (pre ++ lead ++ c :: mid ++ trail ++ rest) r) := by
  have e : pre ++ lead ++ c :: mid ++ trail ++ rest
      = pre ++ (lead ++ (c :: ((mid ++ trail) ++ rest))) := by simp
  have hr := read_field_unquoted_trimmed pre lead c mid trail rest hlead hc hq hlast htrail
    hnt hrest
  have hsp := span_bytes_unquoted pre lead c mid trail rest
  have h1 : incl_ok string_type := by simp only [incl_ok]; decide
  have h7 : incl_ok (string_type ||| (double_type ||| integer_type)) := by
    simp only [incl_ok]; decide
  have hntc : ∀ x ∈ c :: mid, x ≠ ch_comma ∧ x ≠ ch_cr ∧ x ≠ ch_lf := by
    intro x hx
    apply hnt
    rcases List.mem_cons.1 hx with rfl | hx
    · simp
    · simp [hx]
  have hntt : ∀ x ∈ trail, x ≠ ch_comma ∧ x ≠ ch_cr ∧ x ≠ ch_lf :=
    fun x hx => hnt x (by simp [hx])
  rw [e]
  refine ⟨_, hr, hsp _ _, ?_⟩
  rw [hsp]
  show resolve _ _ = reference_type (c :: mid)
  by_cases hs : c = ch_minus ∨ c = ch_plus
  · have hs1 : c = ch_plus ∨ c = ch_minus := hs.symm
    have hlast1 : ∀ z, mid.getLast? = some z → isspace z = false := by
      intro z hz
      apply hlast
      cases mid with
      | nil => cases hz
      | cons m ms => rw [List.getLast?_cons_cons]; exact hz
    rw [if_pos hs, init_state_sign c _ hs]
    have := mask_reference mid trail (pre.length + lead.length + 1) _ h7 (fun _ => rfl) hlast1
      (fun x hx => hntc x (by simp [hx])) htrail hntt
    rw [this]
    simp only [reference_type, unsigned_part, if_pos hs1]
  · have hs1 : ¬(c = ch_plus ∨ c = ch_minus) := fun h => hs h.symm
    rw [if_neg hs, init_state_plain c _ hs]
    have := mask_reference (c :: mid) trail (pre.length + lead.length) _ h1
      (fun h => by cases h) hlast hntc htrail hntt
    rw [List.cons_append] at this
    rw [this]
    simp only [reference_type, unsigned_part, if_neg hs1]

/-- Claim C19 on the buffer `a, -12.5 ,d` with the cursor at index 2. -/
theorem read_field_type_is_reference_witness :
    ∃ r, read_field (bytes "a, -12.5 ,d") 2 = .ok r ∧
      span_bytes (bytes "a, -12.5 ,d") r = bytes "-12.5" ∧
      r.mask = reference_type (span_bytes (bytes "a, -12.5 ,d") r) :=
  read_field_type_is_reference (bytes "a,") [ch_space] ch_minus (bytes "12.5") [ch_space]
    (bytes ",d") (by decide) (by decide) (by decide) (by decide) (by decide) (by decide)
    (by decide)


/-! ## bit_count counts the 1 bits -/

theorem and_split8 (x m : Nat) :
    x &&& m = 256 * ((x / 256) &&& (m / 256)) + ((x % 256) &&& (m % 256)) := by
  have h1 : (x &&& m) / 256 = (x / 256) &&& (m / 256) := by
    have e : (256 : Nat) = 2 ^ 8 := by norm_num
    rw [e, ← Nat.shiftRight_eq_div_pow, ← Nat.shiftRight_eq_div_pow, ← Nat.shiftRight_eq_div_pow]
    apply Nat.eq_of_testBit_eq
    intro i
    simp only [Nat.testBit_shiftRight, Nat.testBit_and]
  have h2 : (x &&& m) % 256 = (x % 256) &&& (m % 256) := by
    have e : (256 : Nat) = 2 ^ 8 := by norm_num
    rw [e]
    apply Nat.eq_of_testBit_eq
    intro i
    simp only [Nat.testBit_mod_two_pow, Nat.testBit_and]
    cases decide (i < 8) <;> cases x.testBit i <;> cases m.testBit i <;> rfl
  have h3 := Nat.div_add_mod (x &&& m) 256
  rw [h1, h2] at h3
  exact h3.symm

theorem and_bytes (x m : Nat) :
    x &&& m = ((x % 256) &&& (m % 256))
      + 256 * (((x / 256 % 256) &&& (m / 256 % 256))
        + 256 * (((x / 256 / 256 % 256) &&& (m / 256 / 256 % 256))
          + 256 * ((x / 256 / 256 / 256) &&& (m / 256 / 256 / 256)))) := by
  have h1 := and_split8 x m
  have h2 := and_split8 (x / 256) (m / 256)
  have h3 := and_split8 (x / 256 / 256) (m / 256 / 256)
  omega

set_option maxRecDepth 100000 in
theorem byte_facts : ∀ b, b < 256 →
    ((b / 2) &&& 85) ≤ b ∧
    (((b - ((b / 2) &&& 85)) &&& 51) + (((b - ((b / 2) &&& 85)) / 4) &&& 51)) % 16 ≤ 4 ∧
    (((b - ((b / 2) &&& 85)) &&& 51) + (((b - ((b / 2) &&& 85)) / 4) &&& 51)) / 16 ≤ 4 ∧
    ((((b - ((b / 2) &&& 85)) &&& 51) + (((b - ((b / 2) &&& 85)) / 4) &&& 51))
      + (((b - ((b / 2) &&& 85)) &&& 51) + (((b - ((b / 2) &&& 85)) / 4) &&& 51)) / 16) % 16
      = bit_sum 8 b := by
  decide!

set_option maxRecDepth 100000 in
theorem cross_facts_1 : ∀ b, b < 256 → ∀ t, t < 2 →
    ((b / 2 + 128 * t) &&& 85) = ((b / 2) &&& 85) := by
  decide!

set_option maxRecDepth 100000 in
theorem cross_facts_2 : ∀ c, c < 256 → ∀ t, t < 4 →
    ((c / 4 + 64 * t) &&& 51) = ((c / 4) &&& 51) := by
  decide!


theorem and_15 (x : Nat) : x &&& 15 = x % 16 :=
  Nat.and_pow_two_sub_one_eq_mod x 4

theorem bit_count_step1 (b0 b1 b2 b3 : Nat) (h0 : b0 < 256) (h1 : b1 < 256) (h2 : b2 < 256)
    (_h3 : b3 < 256) :
    ((b0 + 256 * (b1 + 256 * (b2 + 256 * b3))) >>> 1) &&& 0x55555555
      = ((b0 / 2) &&& 85) + 256 * (((b1 / 2) &&& 85)
          + 256 * (((b2 / 2) &&& 85) + 256 * ((b3 / 2) &&& 85))) := by
  rw [Nat.shiftRight_eq_div_pow, and_bytes]
  have e0 : (b0 + 256 * (b1 + 256 * (b2 + 256 * b3))) / 2 ^ 1 % 256
      = b0 / 2 + 128 * (b1 % 2) := by omega
  have e1 : (b0 + 256 * (b1 + 256 * (b2 + 256 * b3))) / 2 ^ 1 / 256 % 256
      = b1 / 2 + 128 * (b2 % 2) := by omega
  have e2 : (b0 + 256 * (b1 + 256 * (b2 + 256 * b3))) / 2 ^ 1 / 256 / 256 % 256
      = b2 / 2 + 128 * (b3 % 2) := by omega
  have e3 : (b0 + 256 * (b1 + 256 * (b2 + 256 * b3))) / 2 ^ 1 / 256 / 256 / 256
      = b3 / 2 := by omega
  rw [e0, e1, e2, e3]
  simp only [Nat.reduceMod, Nat.reduceDiv]
  rw [cross_facts_1 b0 h0 _ (Nat.mod_lt _ (by norm_num)),
    cross_facts_1 b1 h1 _ (Nat.mod_lt _ (by norm_num)),
    cross_facts_1 b2 h2 _ (Nat.mod_lt _ (by norm_num))]

theorem bit_count_step2 (c0 c1 c2 c3 : Nat) (h0 : c0 < 256) (h1 : c1 < 256) (h2 : c2 < 256)
    (_h3 : c3 < 256) :
    ((c0 + 256 * (c1 + 256 * (c2 + 256 * c3))) &&& 0x33333333)
        + (((c0 + 256 * (c1 + 256 * (c2 + 256 * c3))) >>> 2) &&& 0x33333333)
      = ((c0 &&& 51) + ((c0 / 4) &&& 51)) + 256 * (((c1 &&& 51) + ((c1 / 4) &&& 51))
          + 256 * (((c2 &&& 51) + ((c2 / 4) &&& 51))
            + 256 * ((c3 &&& 51) + ((c3 / 4) &&& 51)))) := by
  rw [Nat.shiftRight_eq_div_pow, and_bytes (c0 + 256 * (c1 + 256 * (c2 + 256 * c3))),
    and_bytes ((c0 + 256 * (c1 + 256 * (c2 + 256 * c3))) / 2 ^ 2)]
  have a0 : (c0 + 256 * (c1 + 256 * (c2 + 256 * c3))) % 256 = c0 := by omega
  have a1 : (c0 + 256 * (c1 + 256 * (c2 + 256 * c3))) / 256 % 256 = c1 := by omega
  have a2 : (c0 + 256 * (c1 + 256 * (c2 + 256 * c3))) / 256 / 256 % 256 = c2 := by omega
  have a3 : (c0 + 256 * (c1 + 256 * (c2 + 256 * c3))) / 256 / 256 / 256 = c3 := by omega
  have e0 : (c0 + 256 * (c1 + 256 * (c2 + 256 * c3))) / 2 ^ 2 % 256
      = c0 / 4 + 64 * (c1 % 4) := by omega
  have e1 : (c0 + 256 * (c1 + 256 * (c2 + 256 * c3))) / 2 ^ 2 / 256 % 256
      = c1 / 4 + 64 * (c2 % 4) := by omega
  have e2 : (c0 + 256 * (c1 + 256 * (c2 + 256 * c3))) / 2 ^ 2 / 256 / 256 % 256
      = c2 / 4 + 64 * (c3 % 4) := by omega
  have e3 : (c0 + 256 * (c1 + 256 * (c2 + 256 * c3))) / 2 ^ 2 / 256 / 256 / 256
      = c3 / 4 := by omega
  rw [a0, a1, a2, a3, e0, e1, e2, e3]
  simp only [Nat.reduceMod, Nat.reduceDiv]
  rw [cross_facts_2 c0 h0 _ (Nat.mod_lt _ (by norm_num)),
    cross_facts_2 c1 h1 _ (Nat.mod_lt _ (by norm_num)),
    cross_facts_2 c2 h2 _ (Nat.mod_lt _ (by norm_num))]
  omega

theorem bit_count_step3 (d0 d1 d2 d3 : Nat)
    (h0 : d0 % 16 ≤ 4 ∧ d0 / 16 ≤ 4) (h1 : d1 % 16 ≤ 4 ∧ d1 / 16 ≤ 4)
    (h2 : d2 % 16 ≤ 4 ∧ d2 / 16 ≤ 4) (h3 : d3 % 16 ≤ 4 ∧ d3 / 16 ≤ 4) :
    (((d0 + 256 * (d1 + 256 * (d2 + 256 * d3)))
        + ((d0 + 256 * (d1 + 256 * (d2 + 256 * d3))) >>> 4)) % 2 ^ 32) &&& 0x0F0F0F0F
      = (d0 + d0 / 16) % 16 + 256 * ((d1 + d1 / 16) % 16
          + 256 * ((d2 + d2 / 16) % 16 + 256 * ((d3 + d3 / 16) % 16))) := by
  have hy : ((d0 + 256 * (d1 + 256 * (d2 + 256 * d3)))
        + ((d0 + 256 * (d1 + 256 * (d2 + 256 * d3))) >>> 4)) % 2 ^ 32
      = (d0 + d0 / 16 + 16 * (d1 % 16)) + 256 * ((d1 + d1 / 16 + 16 * (d2 % 16))
          + 256 * ((d2 + d2 / 16 + 16 * (d3 % 16)) + 256 * (d3 + d3 / 16))) := by
    have hN : (d0 + 256 * (d1 + 256 * (d2 + 256 * d3))) / 16
        = d0 / 16 + 16 * d1 + 4096 * d2 + 1048576 * d3 := by omega
    have hlt : (d0 + 256 * (d1 + 256 * (d2 + 256 * d3)))
        + (d0 / 16 + 16 * d1 + 4096 * d2 + 1048576 * d3) < 4294967296 := by omega
    rw [Nat.shiftRight_eq_div_pow]
    simp only [Nat.reducePow]
    rw [hN, Nat.mod_eq_of_lt hlt]
    omega
  rw [hy, and_bytes]
  have a0 : ((d0 + d0 / 16 + 16 * (d1 % 16)) + 256 * ((d1 + d1 / 16 + 16 * (d2 % 16))
      + 256 * ((d2 + d2 / 16 + 16 * (d3 % 16)) + 256 * (d3 + d3 / 16)))) % 256
      = d0 + d0 / 16 + 16 * (d1 % 16) := by omega
  have a1 : ((d0 + d0 / 16 + 16 * (d1 % 16)) + 256 * ((d1 + d1 / 16 + 16 * (d2 % 16))
      + 256 * ((d2 + d2 / 16 + 16 * (d3 % 16)) + 256 * (d3 + d3 / 16)))) / 256 % 256
      = d1 + d1 / 16 + 16 * (d2 % 16) := by omega
  have a2 : ((d0 + d0 / 16 + 16 * (d1 % 16)) + 256 * ((d1 + d1 / 16 + 16 * (d2 % 16))
      + 256 * ((d2 + d2 / 16 + 16 * (d3 % 16)) + 256 * (d3 + d3 / 16)))) / 256 / 256 % 256
      = d2 + d2 / 16 + 16 * (d3 % 16) := by omega
  have a3 : ((d0 + d0 / 16 + 16 * (d1 % 16)) + 256 * ((d1 + d1 / 16 + 16 * (d2 % 16))
      + 256 * ((d2 + d2 / 16 + 16 * (d3 % 16)) + 256 * (d3 + d3 / 16)))) / 256 / 256 / 256
      = d3 + d3 / 16 := by omega
  rw [a0, a1, a2, a3]
  simp only [Nat.reduceMod, Nat.reduceDiv, and_15]
  clear hy a0 a1 a2 a3
  omega

theorem bit_count_step4 (e0 e1 e2 e3 : Nat) (h0 : e0 < 16) (h1 : e1 < 16) (h2 : e2 < 16)
    (h3 : e3 < 16) :
    (((e0 + 256 * (e1 + 256 * (e2 + 256 * e3))) * 0x01010101) % 2 ^ 32) >>> 24
      = e0 + e1 + e2 + e3 := by
  have hm : (e0 + 256 * (e1 + 256 * (e2 + 256 * e3))) * 0x01010101
      = e0 + 256 * (e0 + e1) + 65536 * (e0 + e1 + e2) + 16777216 * (e0 + e1 + e2 + e3)
        + 4294967296 * ((e1 + e2 + e3) + 256 * (e2 + e3) + 65536 * e3) := by
    ring
  have hlow : e0 + 256 * (e0 + e1) + 65536 * (e0 + e1 + e2) + 16777216 * (e0 + e1 + e2 + e3)
      < 4294967296 := by omega
  rw [hm, Nat.shiftRight_eq_div_pow]
  simp only [Nat.reducePow]
  rw [Nat.add_mul_mod_self_left, Nat.mod_eq_of_lt hlow]
  clear hm hlow
  omega


theorem bit_count_bytes (b0 b1 b2 b3 : Nat) (h0 : b0 < 256) (h1 : b1 < 256) (h2 : b2 < 256)
    (h3 : b3 < 256) :
    bit_count (b0 + 256 * (b1 + 256 * (b2 + 256 * b3)))
      = bit_sum 8 b0 + bit_sum 8 b1 + bit_sum 8 b2 + bit_sum 8 b3 := by
  obtain ⟨f01, f02, f03, f04⟩ := byte_facts b0 h0
  obtain ⟨f11, f12, f13, f14⟩ := byte_facts b1 h1
  obtain ⟨f21, f22, f23, f24⟩ := byte_facts b2 h2
  obtain ⟨f31, f32, f33, f34⟩ := byte_facts b3 h3
  have hn1 : ((b0 + 256 * (b1 + 256 * (b2 + 256 * b3))) + 2 ^ 32
        - (((b0 / 2) &&& 85) + 256 * (((b1 / 2) &&& 85)
          + 256 * (((b2 / 2) &&& 85) + 256 * ((b3 / 2) &&& 85))))) % 2 ^ 32
      = (b0 - ((b0 / 2) &&& 85)) + 256 * ((b1 - ((b1 / 2) &&& 85))
          + 256 * ((b2 - ((b2 / 2) &&& 85)) + 256 * (b3 - ((b3 / 2) &&& 85)))) := by
    simp only [Nat.reducePow]
    omega
  have hn2 : ((((b0 - ((b0 / 2) &&& 85)) &&& 51) + (((b0 - ((b0 / 2) &&& 85)) / 4) &&& 51))
        + 256 * ((((b1 - ((b1 / 2) &&& 85)) &&& 51) + (((b1 - ((b1 / 2) &&& 85)) / 4) &&& 51))
          + 256 * ((((b2 - ((b2 / 2) &&& 85)) &&& 51) + (((b2 - ((b2 / 2) &&& 85)) / 4) &&& 51))
            + 256 * (((b3 - ((b3 / 2) &&& 85)) &&& 51)
              + (((b3 - ((b3 / 2) &&& 85)) / 4) &&& 51))))) < 2 ^ 32 := by
    simp only [Nat.reducePow]
    omega
  unfold bit_count
  simp only []
  rw [bit_count_step1 b0 b1 b2 b3 h0 h1 h2 h3, hn1,
    bit_count_step2 _ _ _ _ (by omega) (by omega) (by omega) (by omega),
    Nat.mod_eq_of_lt hn2,
    bit_count_step3 _ _ _ _ ⟨f02, f03⟩ ⟨f12, f13⟩ ⟨f22, f23⟩ ⟨f32, f33⟩,
    bit_count_step4 _ _ _ _ (Nat.mod_lt _ (by norm_num)) (Nat.mod_lt _ (by norm_num))
      (Nat.mod_lt _ (by norm_num)) (Nat.mod_lt _ (by norm_num)),
    f04, f14, f24, f34]

theorem bit_sum_zero (w : Nat) : bit_sum w 0 = 0 := by
  induction w with
  | zero => rfl
  | succ w ih => simp [bit_sum, ih]

theorem bit_sum_add (a b n : Nat) :
    bit_sum (a + b) n = bit_sum a (n % 2 ^ a) + bit_sum b (n / 2 ^ a) := by
  induction a generalizing n with
  | zero => simp [bit_sum]
  | succ a ih =>
    have e : a + 1 + b = (a + b) + 1 := by omega
    have h1 : n % 2 ^ (a + 1) % 2 = n % 2 :=
      Nat.mod_mod_of_dvd n (Dvd.intro_left (2 ^ a) rfl)
    have h2 : n % 2 ^ (a + 1) / 2 = n / 2 % 2 ^ a := by
      rw [pow_succ', Nat.mod_mul_right_div_self]
    have h3 : n / 2 ^ (a + 1) = n / 2 / 2 ^ a := by
      rw [pow_succ', Nat.div_div_eq_div_mul]
    rw [e]
    simp only [bit_sum]
    rw [ih (n / 2), h1, h2, h3]
    omega

theorem bit_sum_digits (w n : Nat) (h : n < 2 ^ w) : bit_sum w n = (Nat.digits 2 n).sum := by
  induction w generalizing n with
  | zero =>
    have : n = 0 := by simpa using h
    subst this
    simp [bit_sum]
  | succ w ih =>
    by_cases hn : n = 0
    · subst hn
      simp [bit_sum_zero]
    · have hlt : n / 2 < 2 ^ w := by
        rw [pow_succ] at h
        omega
      rw [Nat.digits_def' (by norm_num) (Nat.pos_of_ne_zero hn), List.sum_cons, ← ih _ hlt]
      rfl

theorem bit_sum_bytes (n : Nat) :
    bit_sum 32 n = bit_sum 8 (n % 256) + bit_sum 8 (n / 256 % 256)
      + bit_sum 8 (n / 256 / 256 % 256) + bit_sum 8 (n / 256 / 256 / 256 % 256) := by
  have h1 := bit_sum_add 8 24 n
  have h2 := bit_sum_add 8 16 (n / 2 ^ 8)
  have h3 := bit_sum_add 8 8 (n / 2 ^ 8 / 2 ^ 8)
  have h4 := bit_sum_add 8 0 (n / 2 ^ 8 / 2 ^ 8 / 2 ^ 8)
  simp only [Nat.reducePow, Nat.reduceAdd] at h1 h2 h3 h4
  rw [h1, h2, h3, h4]
  simp only [bit_sum]
  omega

/-- Claim C20: for every `n` below `2 ^ 32`, `bit_count n` is the number of 1
bits of `n` (the sum of its binary digits); it is 1 on each of the four type
constants and 0 on 0. -/
theorem bit_count_counts_ones (n : Nat) (hn : n < 2 ^ 32) :
    bit_count n = bit_sum 32 n ∧ bit_count n = (Nat.digits 2 n).sum ∧
      bit_count string_type = 1 ∧ bit_count double_type = 1 ∧
      bit_count integer_type = 1 ∧ bit_count null_type = 1 ∧ bit_count 0 = 0 := by
  have hb : bit_count n = bit_sum 32 n := by
    have e : n = n % 256 + 256 * (n / 256 % 256 + 256 * (n / 256 / 256 % 256
        + 256 * (n / 256 / 256 / 256))) := by omega
    have h3 : n / 256 / 256 / 256 < 256 := by
      simp only [Nat.reducePow] at hn
      omega
    have hm : n / 256 / 256 / 256 % 256 = n / 256 / 256 / 256 := Nat.mod_eq_of_lt h3
    rw [bit_sum_bytes, hm]
    have := bit_count_bytes (n % 256) (n / 256 % 256) (n / 256 / 256 % 256)
      (n / 256 / 256 / 256) (Nat.mod_lt _ (by norm_num)) (Nat.mod_lt _ (by norm_num))
      (Nat.mod_lt _ (by norm_num)) h3
    rw [← e] at this
    exact this
  refine ⟨hb, ?_, by decide, by decide, by decide, by decide, by decide⟩
  rw [hb]
  exact bit_sum_digits 32 n hn

/-- Claim C20 at `0xF00F1234`, which has thirteen 1 bits. -/
theorem bit_count_counts_ones_witness : bit_count 0xF00F1234 = 13 :=
  (bit_count_counts_ones 0xF00F1234 (by decide)).1


/-! ## The keys of the Bayesian classifier -/

theorem for_append_some {α : Type} (l : List α) (body : α → Option (List Nat))
    (g : α → List Nat) (h : ∀ a ∈ l, body a = some (g a)) :
    for_append l body = some (l.flatMap g) := by
  induction l with
  | nil => rfl
  | cons a as ih =>
    have h1 := h a (List.mem_cons_self a as)
    have h2 := ih (fun b hb => h b (List.mem_cons_of_mem a hb))
    simp [for_append, h1, h2]

theorem flatMap_singleton_map {α : Type} (l : List α) (g : α → Nat) :
    l.flatMap (fun a => [g a]) = l.map g := by
  induction l with
  | nil => rfl
  | cons a as ih => simp [List.flatMap_cons, ih]

/-- The key of column `i`, value `j` and output value `k` as a number. -/
theorem calculateMapKey_some (m M i j k : Nat) (hM : M ≠ 0) :
    calculateMapKey (m + 1) M i j k = some (i * M + j + k * (m * M)) := by
  simp [calculateMapKey, hM]

theorem withoutData_closed (ns : List Nat) (K M : Nat) (hM : M ≠ 0) :
    calculateProbabilitiesOfInputsWithoutData ns K M =
      some ((List.range K).flatMap fun k =>
        (List.range ns.length).flatMap fun i =>
          (List.range (ns.getD i 0)).map fun j => i * M + j + k * (ns.length * M)) := by
  unfold calculateProbabilitiesOfInputsWithoutData
  apply for_append_some
  intro k _
  rw [Nat.add_sub_cancel]
  apply for_append_some
  intro i _
  rw [← flatMap_singleton_map]
  apply for_append_some
  intro j _
  rw [calculateMapKey_some _ _ _ _ _ hM]
  rfl

theorem le_foldl_max (ns : List Nat) (a : Nat) :
    a ≤ ns.foldl max a ∧ ∀ n ∈ ns, n ≤ ns.foldl max a := by
  induction ns generalizing a with
  | nil => exact ⟨Nat.le_refl a, fun n hn => absurd hn (List.not_mem_nil n)⟩
  | cons b bs ih =>
    rw [List.foldl_cons]
    obtain ⟨h1, h2⟩ := ih (max a b)
    refine ⟨Nat.le_trans (Nat.le_max_left a b) h1, ?_⟩
    intro n hn
    rcases List.mem_cons.mp hn with rfl | hn
    · exact Nat.le_trans (Nat.le_max_right a n) h1
    · exact h2 n hn

theorem getD_le_foldl_max (ns : List Nat) (i : Nat) : ns.getD i 0 ≤ ns.foldl max 0 := by
  by_cases h : i < ns.length
  · have e : ns.getD i 0 = ns[i] := by simp [List.getD, List.getElem?_eq_getElem h]
    rw [e]
    exact (le_foldl_max ns 0).2 _ (List.getElem_mem h)
  · have e : ns.getD i 0 = 0 := by
      simp [List.getD, List.getElem?_eq_none (Nat.le_of_not_lt h)]
    rw [e]
    exact Nat.zero_le _

theorem map_getD_range (ns : List Nat) :
    (List.range ns.length).map (fun i => ns.getD i 0) = ns := by
  apply List.ext_getElem
  · simp
  · intro i h1 h2
    simp [List.getD, List.getElem?_eq_getElem h2]

theorem map_getD_range_take (ns : List Nat) (j : Nat) (hj : j ≤ ns.length) :
    (List.range j).map (fun i => ns.getD i 0) = ns.take j := by
  apply List.ext_getElem
  · simp [Nat.min_eq_left hj]
  · intro i h1 h2
    have h3 : i < ns.length := by
      simp at h2
      omega
    simp [List.getD, List.getElem?_eq_getElem h3]

theorem length_flatMap_const {α : Type} (l : List α) (f : α → List Nat) (S : Nat)
    (h : ∀ a ∈ l, (f a).length = S) : (l.flatMap f).length = l.length * S := by
  induction l with
  | nil => simp
  | cons a as ih =>
    rw [List.flatMap_cons, List.length_append, h a (List.mem_cons_self a as),
      ih (fun b hb => h b (List.mem_cons_of_mem a hb)), List.length_cons]
    ring

theorem length_flatMap_range (f : Nat → List Nat) (n : Nat) :
    ((List.range n).flatMap f).length = ((List.range n).map fun c => (f c).length).sum := by
  induction n with
  | zero => rfl
  | succ n ih =>
    rw [List.range_succ, List.flatMap_append, List.length_append, ih, List.map_append,
      List.sum_append]
    simp

theorem flatMap_range_split (f : Nat → List Nat) (k n : Nat) (h : k < n) :
    ∃ rest, (List.range n).flatMap f = (List.range k).flatMap f ++ (f k ++ rest) := by
  induction n with
  | zero => omega
  | succ n ih =>
    rw [List.range_succ, List.flatMap_append]
    by_cases hk : k = n
    · subst hk
      exact ⟨[], by simp⟩
    · obtain ⟨rest, hr⟩ := ih (by omega)
      exact ⟨rest ++ f n, by rw [hr]; simp⟩

theorem getElem?_flatMap_range (f : Nat → List Nat) (k n v : Nat) (h : k < n)
    (hv : v < (f k).length) :
    ((List.range n).flatMap f)[((List.range k).flatMap f).length + v]? = (f k)[v]? := by
  obtain ⟨rest, hr⟩ := flatMap_range_split f k n h
  rw [hr, List.getElem?_append_right (Nat.le_add_right _ _), Nat.add_sub_cancel_left,
    List.getElem?_append_left hv]

theorem key_row_length (ns : List Nat) (M k i : Nat) :
    (key_row ns M k i).length = ns.getD i 0 := by
  simp [key_row]

theorem key_rows_length (ns : List Nat) (M k j : Nat) :
    ((List.range j).flatMap (key_row ns M k)).length =
      ((List.range j).map fun c => ns.getD c 0).sum := by
  rw [length_flatMap_range]
  simp only [key_row_length]

theorem key_block_length (ns : List Nat) (M k : Nat) :
    (key_block ns M k).length = ns.sum := by
  unfold key_block
  rw [key_rows_length, map_getD_range]

theorem key_offset_eq (ns : List Nat) : key_offset ns = ns.sum := by
  unfold key_offset
  rw [Nat.add_sub_cancel, map_getD_range]

theorem withoutData_blocks (ns : List Nat) (K M : Nat) (hM : M ≠ 0) :
    calculateProbabilitiesOfInputsWithoutData ns K M =
      some ((List.range K).flatMap (key_block ns M)) :=
  withoutData_closed ns K M hM

theorem mem_key_row (ns : List Nat) (M k i x : Nat) (h : x ∈ key_row ns M k i) :
    ∃ j, j < ns.getD i 0 ∧ x = i * M + j + k * (ns.length * M) := by
  unfold key_row at h
  obtain ⟨j, hj, e⟩ := List.mem_map.mp h
  exact ⟨j, List.mem_range.mp hj, e.symm⟩

theorem key_row_bounds (ns : List Nat) (k i x : Nat)
    (h : x ∈ key_row ns (ns.foldl max 0) k i) :
    i * ns.foldl max 0 + k * (ns.length * ns.foldl max 0) ≤ x ∧
      x < (i + 1) * ns.foldl max 0 + k * (ns.length * ns.foldl max 0) := by
  obtain ⟨j, hj, e⟩ := mem_key_row ns _ k i x h
  have hb := getD_le_foldl_max ns i
  have e1 : (i + 1) * ns.foldl max 0 = i * ns.foldl max 0 + ns.foldl max 0 := by ring
  rw [e1]
  omega

theorem key_row_pairwise (ns : List Nat) (M k i : Nat) :
    (key_row ns M k i).Pairwise (· < ·) := by
  unfold key_row
  rw [List.pairwise_map]
  exact (List.pairwise_lt_range _).imp (fun {a b} hab => by omega)

theorem key_block_bounds (ns : List Nat) (k x : Nat)
    (h : x ∈ key_block ns (ns.foldl max 0) k) :
    k * (ns.length * ns.foldl max 0) ≤ x ∧ x < (k + 1) * (ns.length * ns.foldl max 0) := by
  unfold key_block at h
  obtain ⟨i, hi, hx⟩ := List.mem_flatMap.mp h
  have hi := List.mem_range.mp hi
  obtain ⟨h1, h2⟩ := key_row_bounds ns k i x hx
  have h3 : (i + 1) * ns.foldl max 0 ≤ ns.length * ns.foldl max 0 :=
    Nat.mul_le_mul_right _ hi
  have e1 : (k + 1) * (ns.length * ns.foldl max 0) =
      k * (ns.length * ns.foldl max 0) + ns.length * ns.foldl max 0 := by ring
  rw [e1]
  omega

theorem key_block_pairwise (ns : List Nat) (k : Nat) :
    (key_block ns (ns.foldl max 0) k).Pairwise (· < ·) := by
  unfold key_block
  rw [List.pairwise_flatMap]
  refine ⟨fun i _ => key_row_pairwise ns _ k i, ?_⟩
  refine (List.pairwise_lt_range _).imp ?_
  intro a b hab x hx y hy
  have h1 := (key_row_bounds ns k a x hx).2
  have h2 := (key_row_bounds ns k b y hy).1
  have h3 : (a + 1) * ns.foldl max 0 ≤ b * ns.foldl max 0 := Nat.mul_le_mul_right _ hab
  omega

theorem key_blocks_pairwise (ns : List Nat) (K : Nat) :
    ((List.range K).flatMap (key_block ns (ns.foldl max 0))).Pairwise (· < ·) := by
  rw [List.pairwise_flatMap]
  refine ⟨fun k _ => key_block_pairwise ns k, ?_⟩
  refine (List.pairwise_lt_range _).imp ?_
  intro a b hab x hx y hy
  have h1 := (key_block_bounds ns a x hx).2
  have h2 := (key_block_bounds ns b y hy).1
  have h3 : (a + 1) * (ns.length * ns.foldl max 0) ≤ b * (ns.length * ns.foldl max 0) :=
    Nat.mul_le_mul_right _ hab
  omega

theorem foldl_max_ne_zero (ns : List Nat) (h : ∃ n ∈ ns, 0 < n) : ns.foldl max 0 ≠ 0 := by
  obtain ⟨n, hn, hpos⟩ := h
  have := (le_foldl_max ns 0).2 n hn
  omega

/-- Claim C21: for value counts `ns` that are not all zero and `K` output
values, the classifier without training data fills `probabilitiesOfInputs`
without throwing, the keys appended in loop order are strictly increasing
(so the vector is sorted, as the assertion of line 124 requires), and there
are `K` times the sum of the value counts of them. -/
theorem calculateProbabilitiesOfInputs_keys_increasing (ns : List Nat) (K : Nat)
    (h : ∃ n ∈ ns, 0 < n) :
    ∃ keys, calculateProbabilitiesOfInputs ns K = some keys ∧
      keys.Pairwise (· < ·) ∧ keys.length = K * ns.sum := by
  refine ⟨_, withoutData_blocks ns K _ (foldl_max_ne_zero ns h), key_blocks_pairwise ns K, ?_⟩
  rw [length_flatMap_const _ _ ns.sum (fun k _ => key_block_length ns _ k), List.length_range]

theorem calculateProbabilitiesOfInputs_keys_increasing_witness :
    (∃ n ∈ [2, 0, 3], 0 < n) ∧
      ∃ keys, calculateProbabilitiesOfInputs [2, 0, 3] 2 = some keys ∧
        keys.Pairwise (· < ·) ∧ keys.length = 2 * [2, 0, 3].sum :=
  ⟨⟨2, by decide, by decide⟩,
    calculateProbabilitiesOfInputs_keys_increasing [2, 0, 3] 2 ⟨2, by decide, by decide⟩⟩

/-- Claim C22: in `calculatePossibleOutputs`, for every output value `i`, input
column `j` and value `v` of that column, the entry `key_it + v` of the vector
filled by `calculateProbabilitiesOfInputsWithoutData` exists and has the key
`calculateMapKey(j, v, i)`, as the assertion of line 274 checks; `key_offset`
is the sum of the value counts and `key_it` stands at `i * key_offset` plus the
value counts of the columns before `j`. -/
theorem calculatePossibleOutputs_key_at_iterator (ns : List Nat) (K i j v : Nat)
    (hi : i < K) (hj : j < ns.length + 1 - 1) (hv : v < ns.getD j 0) :
    key_offset ns = ns.sum ∧
      key_it_index ns i j = i * ns.sum + (ns.take j).sum ∧
      ∃ keys key, calculateProbabilitiesOfInputs ns K = some keys ∧
        calculateMapKey (ns.length + 1) (ns.foldl max 0) j v i = some key ∧
        keys[key_it_index ns i j + v]? = some key := by
  rw [Nat.add_sub_cancel] at hj
  have hM : ns.foldl max 0 ≠ 0 := by
    have := getD_le_foldl_max ns j
    omega
  have hidx : key_it_index ns i j = i * ns.sum + (ns.take j).sum := by
    unfold key_it_index
    rw [key_offset_eq, map_getD_range_take ns j (Nat.le_of_lt hj)]
  refine ⟨key_offset_eq ns, hidx, _, _, withoutData_blocks ns K _ hM,
    calculateMapKey_some _ _ _ _ _ hM, ?_⟩
  have hrow : ((List.range j).flatMap (key_row ns (ns.foldl max 0) i)).length + v <
      (key_block ns (ns.foldl max 0) i).length := by
    obtain ⟨rest, hr⟩ := flatMap_range_split (key_row ns (ns.foldl max 0) i) j ns.length hj
    unfold key_block
    rw [hr, List.length_append, List.length_append, key_row_length]
    omega
  have e : key_it_index ns i j + v =
      ((List.range i).flatMap (key_block ns (ns.foldl max 0))).length +
        (((List.range j).flatMap (key_row ns (ns.foldl max 0) i)).length + v) := by
    rw [length_flatMap_const _ _ ns.sum (fun k _ => key_block_length ns _ k), List.length_range,
      key_rows_length, hidx, map_getD_range_take ns j (Nat.le_of_lt hj)]
    omega
  rw [e, getElem?_flatMap_range _ i K _ hi hrow]
  unfold key_block
  rw [getElem?_flatMap_range _ j ns.length v hj (by rw [key_row_length]; exact hv)]
  unfold key_row
  rw [List.getElem?_map, List.getElem?_range hv]
  rfl

theorem calculatePossibleOutputs_key_at_iterator_witness :
    1 < 2 ∧ 2 < [2, 0, 3].length + 1 - 1 ∧ 1 < [2, 0, 3].getD 2 0 ∧
      key_offset [2, 0, 3] = [2, 0, 3].sum ∧
      key_it_index [2, 0, 3] 1 2 = 1 * [2, 0, 3].sum + ([2, 0, 3].take 2).sum ∧
      ∃ keys key, calculateProbabilitiesOfInputs [2, 0, 3] 2 = some keys ∧
        calculateMapKey ([2, 0, 3].length + 1) ([2, 0, 3].foldl max 0) 2 1 1 = some key ∧
        keys[key_it_index [2, 0, 3] 1 2 + 1]? = some key :=
  ⟨by decide, by decide, by decide,
    calculatePossibleOutputs_key_at_iterator [2, 0, 3] 2 1 2 1 (by decide) (by decide)
      (by decide)⟩


/-! ## The stop word table -/

theorem is_sorted_adjacent {α : Type} (comp : α → α → Bool) (l : List α)
    (h : is_sorted comp l = true) (i : Nat) (a b : α)
    (ha : l[i]? = some a) (hb : l[i + 1]? = some b) : comp b a = false := by
  induction l generalizing i with
  | nil => simp at ha
  | cons x xs ih =>
    cases xs with
    | nil => simp at hb
    | cons y ys =>
      simp only [is_sorted, Bool.and_eq_true, Bool.not_eq_true'] at h
      cases i with
      | zero =>
        simp only [List.getElem?_cons_zero, List.getElem?_cons_succ, Option.some.injEq] at ha hb
        rw [← ha, ← hb]
        exact h.1
      | succ i =>
        rw [List.getElem?_cons_succ] at ha hb
        exact ih h.2 i ha hb

theorem english_stopwords_is_sorted :
    is_sorted (fun first second => decide (strcmp (bytes first) (bytes second) < 0))
      english_stopwords = true := by
  decide!

/-- Claim C23: the table `english_stopwords` passes the `std::is_sorted` test
that `is_stop_word` asserts, and of every two adjacent entries the later one
does not compare less than the earlier one under `strcmp`. -/
theorem english_stopwords_ascending :
    is_sorted (fun first second => decide (strcmp (bytes first) (bytes second) < 0))
        english_stopwords = true ∧
      ∀ (i : Nat) (a b : String), english_stopwords[i]? = some a →
        english_stopwords[i + 1]? = some b → ¬ strcmp (bytes b) (bytes a) < 0 := by
  refine ⟨english_stopwords_is_sorted, ?_⟩
  intro i a b ha hb
  have h := is_sorted_adjacent _ _ english_stopwords_is_sorted i a b ha hb
  simpa using h

set_option maxRecDepth 100000 in
theorem english_stopwords_ascending_witness :
    english_stopwords[2]? = some "above" ∧ english_stopwords[3]? = some "above" ∧
      ¬ strcmp (bytes "above") (bytes "above") < 0 :=
  ⟨rfl, rfl, english_stopwords_ascending.2 2 "above" "above" rfl rfl⟩

/-! ## set_intersection -/

theorem set_intersection_eq_filter {α : Type} (xs : List Int) (ps : List (Int × α))
    (hx : xs.Pairwise (· < ·)) (hp : (ps.map Prod.fst).Pairwise (· < ·)) :
    set_intersection xs ps = xs.filter (fun x => decide (x ∈ ps.map Prod.fst)) := by
  induction xs, ps using set_intersection.induct with
  | case1 ps => simp [set_intersection]
  | case2 x xs => simp [set_intersection]
  | case3 x xs p ps hlt ih =>
    rw [set_intersection, if_pos hlt, ih (List.pairwise_cons.mp hx).2 hp]
    have hnot : x ∉ (p :: ps).map Prod.fst := by
      rw [List.map_cons, List.pairwise_cons] at hp
      intro hmem
      rw [List.map_cons] at hmem
      rcases List.mem_cons.mp hmem with e | hmem
      · omega
      · have := hp.1 x hmem
        omega
    rw [List.filter_cons_of_neg (by simpa using hnot)]
  | case4 x xs p ps hlt hge ih =>
    have hxp : x = p.1 := by omega
    rw [set_intersection, if_neg hlt, if_pos hge, ih (List.pairwise_cons.mp hx).2
      (by rw [List.map_cons, List.pairwise_cons] at hp; exact hp.2)]
    have hmem : x ∈ (p :: ps).map Prod.fst := by
      rw [List.map_cons, hxp]
      exact List.mem_cons_self _ _
    rw [List.filter_cons_of_pos (by simpa using hmem)]
    congr 1
    apply List.filter_congr
    intro y hy
    have hxy := (List.pairwise_cons.mp hx).1 y hy
    have hne : y ≠ p.1 := by omega
    simp [hne]
  | case5 x xs p ps hlt hge ih =>
    have hpx : p.1 < x := by
      simpa using hge
    rw [set_intersection, if_neg hlt, if_neg hge,
      ih hx (by rw [List.map_cons, List.pairwise_cons] at hp; exact hp.2)]
    apply List.filter_congr
    intro y hy
    have hxy : x ≤ y := by
      rcases List.mem_cons.mp hy with e | hy
      · omega
      · have := (List.pairwise_cons.mp hx).1 y hy
        omega
    have hne : y ≠ p.1 := by omega
    simp [hne]

/-- Claim C24: for a strictly increasing `xs` and pairs `ps` with strictly
increasing keys, `set_intersection` writes the elements of `xs` that are a key
of `ps`, in the order of `xs`: a value is written exactly when it is in `xs`
and is a key of `ps`, none is written twice, and the output is strictly
increasing. -/
theorem set_intersection_writes_common {α : Type} (xs : List Int) (ps : List (Int × α))
    (hx : xs.Pairwise (· < ·)) (hp : (ps.map Prod.fst).Pairwise (· < ·)) :
    set_intersection xs ps = xs.filter (fun x => decide (x ∈ ps.map Prod.fst)) ∧
      (∀ x, x ∈ set_intersection xs ps ↔ x ∈ xs ∧ x ∈ ps.map Prod.fst) ∧
      (set_intersection xs ps).Nodup ∧
      (set_intersection xs ps).Pairwise (· < ·) := by
  have e := set_intersection_eq_filter xs ps hx hp
  have hpw : (set_intersection xs ps).Pairwise (· < ·) := by
    rw [e]
    exact hx.filter _
  refine ⟨e, ?_, ?_, hpw⟩
  · intro x
    rw [e, List.mem_filter]
    simp
  · exact hpw.imp (fun {a b} hab => by omega)

theorem set_intersection_writes_common_witness :
    ([1, 3, 5, 8] : List Int).Pairwise (· < ·) ∧
      (([(0, true), (3, false), (4, true), (8, true)] : List (Int × Bool)).map
        Prod.fst).Pairwise (· < ·) ∧
      set_intersection [1, 3, 5, 8] [(0, true), (3, false), (4, true), (8, true)] = [3, 8] :=
  ⟨by decide, by decide,
    ((set_intersection_writes_common [1, 3, 5, 8]
      [(0, true), (3, false), (4, true), (8, true)] (by decide) (by decide)).1).trans
      (by decide)⟩

/-! ## split_string -/

theorem split_string_loop_stuck (s : List Nat) (delim it : Nat)
    (hs : isspace delim = false) (hit : s[it]? = some delim) (fuel : Nat) (result : List Int) :
    split_string_loop s delim fuel it result = none := by
  induction fuel generalizing result with
  | zero => rfl
  | succ fuel ih =>
    have hlt : it < s.length := by
      by_contra hn
      rw [List.getElem?_eq_none (Nat.le_of_not_lt hn)] at hit
      cases hit
    have hd : s.drop it = delim :: s.drop (it + 1) := by
      rw [List.drop_eq_getElem_cons hlt]
      rw [List.getElem?_eq_getElem hlt] at hit
      rw [Option.some.inj hit]
    have hl : ltrim s it = it := by
      unfold ltrim
      rw [hd]
      simp [ltrim_loop, hs]
    unfold split_string_loop
    simp only [hl, hd, find_delim, if_neg (Nat.ne_of_lt hlt), if_true]
    exact ih _

theorem find_delim_finds (delim : Nat) (l : List Nat) (it : Nat) (h : delim ∈ l) :
    ∃ k, find_delim delim l it = it + k ∧ l[k]? = some delim := by
  induction l generalizing it with
  | nil => exact absurd h (List.not_mem_nil _)
  | cons c rest ih =>
    by_cases hc : c = delim
    · exact ⟨0, by simp [find_delim, hc], by simp [hc]⟩
    · have hmem : delim ∈ rest := by
        rcases List.mem_cons.mp h with e | hm
        · exact absurd e.symm hc
        · exact hm
      obtain ⟨k, h1, h2⟩ := ih (it + 1) hmem
      exact ⟨k + 1, by simp [find_delim, hc, h1]; omega, by simpa using h2⟩

theorem ltrim_loop_keeps (delim : Nat) (l : List Nat) (begin : Nat)
    (hs : isspace delim = false) (h : delim ∈ l) :
    ∃ k, ltrim_loop l begin = begin + k ∧ k < l.length ∧ delim ∈ l.drop k := by
  induction l generalizing begin with
  | nil => exact absurd h (List.not_mem_nil _)
  | cons c rest ih =>
    by_cases hc : isspace c = true
    · have hmem : delim ∈ rest := by
        rcases List.mem_cons.mp h with e | hm
        · rw [e, hc] at hs
          cases hs
        · exact hm
      obtain ⟨k, h1, h2, h3⟩ := ih (begin + 1) hmem
      refine ⟨k + 1, ?_, ?_, ?_⟩
      · simp [ltrim_loop, hc, h1]
        omega
      · simp
        omega
      · simpa using h3
    · exact ⟨0, by simp [ltrim_loop, hc], by simp, by simpa using h⟩

/-- Claim C25: `split_string` does not return for a delimiter that is not
whitespace and occurs in the input: after the first token the cursor is set
on the delimiter, `ltrim` does not pass it, the search finds it again where
the cursor is, and every further iteration appends one more number; no
amount of fuel gives a result. -/
theorem split_string_never_returns (s : List Nat) (delim : Nat)
    (hs : isspace delim = false) (h : delim ∈ s) (fuel : Nat) :
    split_string fuel s delim = none := by
  cases fuel with
  | zero => rfl
  | succ fuel =>
    obtain ⟨k, h1, h2, h3⟩ := ltrim_loop_keeps delim s 0 hs h
    obtain ⟨j, h4, h5⟩ := find_delim_finds delim (s.drop k) k h3
    have hl : ltrim s 0 = k := by
      unfold ltrim
      rw [List.drop_zero, h1, Nat.zero_add]
    unfold split_string split_string_loop
    simp only [hl, if_neg (Nat.ne_of_lt h2), h4]
    apply split_string_loop_stuck s delim (k + j) hs
    rw [← h5, List.getElem?_drop]

theorem split_string_never_returns_witness :
    isspace ch_comma = false ∧ ch_comma ∈ bytes "1,2" ∧
      split_string 1000 (bytes "1,2") ch_comma = none :=
  ⟨by decide, by decide,
    split_string_never_returns (bytes "1,2") ch_comma (by decide) (by decide) 1000⟩

/-- With a whitespace delimiter the tokens of `1 2` are read and the loop
ends: the left trim passes the delimiter the cursor was left on. -/
theorem split_string_space_delimited :
    split_string 3 (bytes "1 2") ch_space = some [1, 2] := by
  decide

/-- The first iterations on `1,2` with delimiter `,`: the token `1`, then one
empty token, read as 0, for every further iteration. -/
theorem split_string_comma_prefix :
    split_string_loop (bytes "1,2") ch_comma 0 0 [] = none ∧
      find_delim ch_comma (bytes "1,2") 0 = 1 ∧
      ltrim (bytes "1,2") 1 = 1 ∧
      find_delim ch_comma ((bytes "1,2").drop 1) 1 = 1 ∧
      atol (((bytes "1,2").drop 1).take (1 - 1)) = 0 := by
  decide

/-! ## The empty field and the span for an `ltrim` that stops at CR and LF -/

theorem ltrim_loop_of_isspace (l : List Nat) (begin : Nat) :
    ltrim_loop_of isspace l begin = ltrim_loop l begin := by
  induction l generalizing begin with
  | nil => rfl
  | cons c rest ih => simp only [ltrim_loop_of, ltrim_loop, ih]

/-- The model `read_field` is `read_field_of` for the class `isspace`. -/
theorem read_field_of_isspace (s : List Nat) (begin : Nat) :
    read_field_of isspace s begin = read_field s begin := by
  unfold read_field_of read_field ltrim_of ltrim
  simp only [ltrim_loop_of_isspace]

theorem claimed_span_blank_end (pre lead : List Nat)
    (hlead : ∀ x ∈ lead, isspace x = true ∧ x ≠ ch_cr ∧ x ≠ ch_lf) :
    claimed_unquoted_span (pre ++ lead) pre.length = [] := by
  have hcomma : ∀ x, isspace x = true → x ≠ ch_comma := by
    intro x hx h
    subst h
    revert hx
    decide
  have hall : ∀ x ∈ lead,
      (fun c => c != ch_comma && c != ch_cr && c != ch_lf) x = true := by
    intro x hx
    simp only [Bool.and_eq_true, bne_iff_ne, ne_eq]
    exact ⟨⟨hcomma x (hlead x hx).1, (hlead x hx).2.1⟩, (hlead x hx).2.2⟩
  unfold claimed_unquoted_span strip_left
  have h0 := @List.takeWhile_append_of_pos Nat
    (fun c => c != ch_comma && c != ch_cr && c != ch_lf) lead [] hall
  rw [List.append_nil, List.takeWhile_nil, List.append_nil] at h0
  rw [List.drop_left, h0]
  have h1 : List.dropWhile isspace lead = [] := by
    have := @List.dropWhile_append_of_pos Nat isspace lead []
      (fun a ha => (hlead a ha).1)
    simpa using this
  rw [h1]
  rfl

/-- The span of a field between whitespace under `field_space`: on
`a,  b c ,d` with the cursor at index 2 the span is `b c`. -/
theorem read_field_of_field_space_example :
    read_field_of field_space (bytes "a,  b c ,d") 2
        = .ok { first := 4, last := 7, mask := string_type, cursor := 7 } ∧
      claimed_unquoted_span (bytes "a,  b c ,d") 2 = bytes "b c" := by
  decide

end data_processing
end cdmh
